import Mathlib

/-!
Verification of the PDF-SYSTEM retrieval-and-chunking pipeline.

This file gives a shallow embedding of the core of the repository
(`app/services/pdf_service.py`, `app/services/embedding_service.py`,
`app/services/qa_service.py`, `app/services/gemini_service.py`,
`app/services/azure_openai_client.py`, and the `/search` endpoint of
`app/main.py`) and proves or refutes the specification claims about it.

Text is modelled as `List Char`.  Python's `str.isprintable` is modelled on
the ASCII fragment (codepoints 0x20–0x7E are printable, everything below
0x20 and 0x7F are not); all concrete inputs used in the development are
ASCII.  Machine floating point is modelled by exact arithmetic (`ℚ` for the
accumulation loops, `ℝ` where a square root or division is taken), which is
the standard shallow-embedding convention for numeric code.
-/

namespace PDFSystem

/-! ## Constants (pdf_service.py lines 19–21) -/

def MAX_CHUNK_SIZE : Nat := 3000

def MIN_CHUNK_SIZE : Nat := 300

def CHUNK_OVERLAP : Nat := 300

/-! ## Character classes -/

/-- Python `str.isprintable`, restricted to the ASCII fragment: space and the
visible ASCII characters (0x20–0x7E) are printable; control characters
(including tab, newline, carriage return) are not. -/
def isPrintable (c : Char) : Bool :=
  0x20 ≤ c.toNat && c.toNat ≤ 0x7E

/-- Python whitespace (the characters stripped by `str.strip()` and matched
by the regex class `\s`, ASCII fragment): space, tab, newline, carriage
return, vertical tab, form feed. -/
def isPyWs (c : Char) : Bool :=
  c = ' ' || c = '\t' || c = '\n' || c = '\x0d' || c = '\x0b' || c = '\x0c'

/-! ## Text normalizer: `clean_text` (pdf_service.py lines 132–143) -/

/-- Model of `re.sub(r'X{2,}', 'X', text)` for a single character `a`:
every maximal run of two or more `a`s is collapsed to a single `a`. -/
def squeezeRuns (a : Char) : List Char → List Char
  | [] => []
  | [c] => [c]
  | c :: d :: rest =>
    if c = a ∧ d = a then squeezeRuns a (d :: rest)
    else c :: squeezeRuns a (d :: rest)

/-- Python `str.strip()` on the left: drop leading whitespace. -/
def dropLeadWs (l : List Char) : List Char := l.dropWhile isPyWs

/-- Python `str.strip()`: drop leading and trailing whitespace. -/
def pyStrip (l : List Char) : List Char :=
  (dropLeadWs (dropLeadWs l.reverse).reverse)

/-- The text normalizer `clean_text` (pdf_service.py lines 132–143):
collapse newline runs, collapse space runs, drop non-printable characters
other than newline, strip. -/
def clean_text (text : List Char) : List Char :=
  pyStrip ((squeezeRuns ' ' (squeezeRuns '\n' text)).filter
    (fun c => isPrintable c || c = '\n'))

/-- No two adjacent occurrences of the character `a`. -/
def NoRun (a : Char) (l : List Char) : Prop :=
  List.Chain' (fun c d => ¬(c = a ∧ d = a)) l

instance (a : Char) (l : List Char) : Decidable (NoRun a l) := by
  unfold NoRun; infer_instance

/-! ## Chunker: `split_text_into_chunks` (pdf_service.py lines 145–211) -/

/-- The portion of a whitespace run that the separator regex `\n\s*\n`
consumes after its leading newline: the prefix of `t` up to and including
the last newline of `t`, empty when `t` contains no newline (in which case
there is no match). -/
def sepTail (t : List Char) : List Char :=
  (t.reverse.dropWhile (fun d => !decide (d = '\n'))).reverse

/-- Scanner for `re.split(r'\n\s*\n', text)` (pdf_service.py line 161).
`cur` holds the piece built so far, in reverse.  At a newline whose
following maximal whitespace run contains another newline, the regex
matches from that newline through the last newline of the run (`\s*` is
greedy and backtracks to the last position where the final `\n` can
match); the consumed separator ends the current piece. -/
def splitParasGo (cur : List Char) : List Char → List (List Char)
  | [] => [cur.reverse]
  | c :: rest =>
    if c = '\n' then
      if (sepTail (rest.takeWhile isPyWs)).isEmpty then
        splitParasGo (c :: cur) rest
      else
        cur.reverse ::
          splitParasGo []
            (rest.drop (sepTail (rest.takeWhile isPyWs)).length)
    else splitParasGo (c :: cur) rest
termination_by l => l.length
decreasing_by
  · simp
  · simp only [List.length_drop, List.length_cons]; omega
  · simp

def split_ws_paragraphs (text : List Char) : List (List Char) :=
  splitParasGo [] text

/-- Paragraph list of the chunker (pdf_service.py lines 161–162): regex
split on blank-line separators, strip each piece, drop the empty ones. -/
def paragraphs (text : List Char) : List (List Char) :=
  ((split_ws_paragraphs text).map pyStrip).filter (fun p => !p.isEmpty)

def backtick : Char := Char.ofNat 96

/-- The fence marker, a triple backtick (pdf_service.py line 157). -/
def codeMarker : List Char := [backtick, backtick, backtick]

/-- Whether `pat` is an initial segment of `l`. -/
def startsWithL : List Char → List Char → Bool
  | [], _ => true
  | _ :: _, [] => false
  | p :: ps, c :: cs => p = c && startsWithL ps cs

/-- Python substring containment `pat in l`. -/
def containsSub (pat : List Char) : List Char → Bool
  | [] => pat.isEmpty
  | c :: rest => startsWithL pat (c :: rest) || containsSub pat rest

/-- Python `paragraph.count("```")` (pdf_service.py line 171):
non-overlapping occurrences, scanning left to right. -/
def countMarker : List Char → Nat
  | [] => 0
  | c :: rest =>
    if startsWithL codeMarker (c :: rest) then
      1 + countMarker ((c :: rest).drop codeMarker.length)
    else countMarker rest
termination_by l => l.length
decreasing_by
  · simp only [List.length_drop, List.length_cons, codeMarker,
      List.length_cons, List.length_nil]
    omega
  · simp

/-- Appending a paragraph to the running buffer (pdf_service.py lines
187 and 194): `current_chunk += "\n\n" + paragraph if current_chunk else
paragraph`. -/
def joinPara (cur p : List Char) : List Char :=
  if cur.isEmpty then p else cur ++ '\n' :: '\n' :: p

/-- The `in_code_block` toggle (pdf_service.py lines 168–178): when the
paragraph contains the marker, an odd marker count flips the flag. -/
def nextInCode (inCode : Bool) (p : List Char) : Bool :=
  if containsSub codeMarker p then
    if ¬inCode ∧ countMarker p % 2 = 1 then true
    else if inCode ∧ countMarker p % 2 = 1 then false
    else inCode
  else inCode

/-- The paragraph-accumulation loop of `split_text_into_chunks`
(pdf_service.py lines 167–198), including the final flush (lines 197–198).
The fence-marker branch (lines 181–187) and the regular branch (lines
188–194) are textually identical in the source; both are kept. -/
def chunkParas : List (List Char) → Bool → List Char → List (List Char)
  | [], _, cur => if cur.isEmpty then [] else [pyStrip cur]
  | p :: rest, inCode, cur =>
    if nextInCode inCode p = true ∨ containsSub codeMarker p = true then
      if MAX_CHUNK_SIZE < cur.length + p.length ∧ MIN_CHUNK_SIZE ≤ cur.length then
        pyStrip cur :: chunkParas rest (nextInCode inCode p) p
      else chunkParas rest (nextInCode inCode p) (joinPara cur p)
    else
      if MAX_CHUNK_SIZE < cur.length + p.length ∧ MIN_CHUNK_SIZE ≤ cur.length then
        pyStrip cur :: chunkParas rest (nextInCode inCode p) p
      else chunkParas rest (nextInCode inCode p) (joinPara cur p)

/-- Python `range(0, stop, step)` for positive `step`. -/
def pyRange (stop step : Nat) : List Nat :=
  List.range' 0 ((stop + step - 1) / step) step

/-- Python slice `text[j:k]` for `j ≤ k`. -/
def pySlice (text : List Char) (j k : Nat) : List Char :=
  (text.drop j).take (k - j)

/-- The fixed-size windowing fallback (pdf_service.py lines 201–208):
`for i in range(0, len(text), MAX_CHUNK_SIZE - CHUNK_OVERLAP)`, with
`i = i - CHUNK_OVERLAP` applied inside the loop body when `i > 0`, and the
window `text[i:min(i + MAX_CHUNK_SIZE, len(text))]`. -/
def fallbackWindows (text : List Char) : List (List Char) :=
  (pyRange text.length (MAX_CHUNK_SIZE - CHUNK_OVERLAP)).map fun i =>
    let j := if 0 < i then i - CHUNK_OVERLAP else i
    pySlice text j (min (j + MAX_CHUNK_SIZE) text.length)

/-- The chunker `split_text_into_chunks` (pdf_service.py lines 145–211):
clean the text, return it whole when it fits in one chunk, otherwise run
the paragraph loop, falling back to fixed windows when the loop produced
no chunks. -/
def split_text_into_chunks (text : List Char) : List (List Char) :=
  if (clean_text text).length ≤ MAX_CHUNK_SIZE then [clean_text text]
  else if (chunkParas (paragraphs (clean_text text)) false []).isEmpty then
    fallbackWindows (clean_text text)
  else chunkParas (paragraphs (clean_text text)) false []

/-- Removal of the chunk-internal `"\n\n"` joins (the separators the
chunker inserts between paragraphs, pdf_service.py lines 187/194):
non-overlapping occurrences of two adjacent newlines are deleted,
scanning left to right. -/
def removeNlNl : List Char → List Char
  | a :: b :: rest =>
    if a = '\n' ∧ b = '\n' then removeNlNl rest
    else a :: removeNlNl (b :: rest)
  | l => l

/-- The buffer the chunker's loop builds from a list of paragraphs:
paragraphs joined by a blank line (`"\n\n"`). -/
def joinParas : List (List Char) → List Char
  | [] => []
  | [p] => p
  | p :: rest => p ++ '\n' :: '\n' :: joinParas rest

/-- Shape of every paragraph produced by `paragraphs`: non-empty,
stripped (both ends non-whitespace), and containing no two adjacent
newlines (any adjacent pair would have been consumed as a separator). -/
def GoodP (p : List Char) : Prop :=
  p ≠ [] ∧ (∀ c ∈ p.head?, isPyWs c = false) ∧
    (∀ c ∈ p.getLast?, isPyWs c = false) ∧ NoRun '\n' p

/-- Counterexample text for C3: two 2000-character paragraphs separated
by newline–space–newline, which the separator regex consumes whole. -/
def cexRepA : List Char := List.replicate 2000 'A'

def cexRepB : List Char := List.replicate 2000 'B'

def cexT : List Char := cexRepA ++ '\n' :: ' ' :: '\n' :: cexRepB

/-! ## Embedder: `get_simple_embeddings` (embedding_service.py lines 47–70)

Floating-point arithmetic is modelled exactly: the accumulation loop lives
in `ℚ`, the Euclidean norm and the division by it in `ℝ`. -/

def DEFAULT_EMBEDDING_DIM : Nat := 128

def pyOrd (c : Char) : ℚ := (c.toNat : ℚ)

/-- One step of the accumulation loop (embedding_service.py lines 58–60):
`embedding[idx] += ord(char) / 1000.0` with `idx = i % embedding_dim`. -/
def bumpAt (v : List ℚ) (i : Nat) (x : ℚ) : List ℚ :=
  v.set i (v.getD i 0 + x)

/-- The accumulation loop of `get_simple_embeddings` (lines 55–60): start
from `np.zeros(embedding_dim)` and add `ord(char)/1000` at position
`i % embedding_dim` for the character at position `i`. -/
def accumEmbedding (dim : Nat) (text : List Char) : List ℚ :=
  text.enum.foldl (fun v p => bumpAt v (p.1 % dim) (pyOrd p.2 / 1000))
    (List.replicate dim 0)

def sumSq (v : List ℚ) : ℚ := (v.map (fun x => x * x)).sum

/-- Euclidean norm `np.linalg.norm` of a rational vector, in `ℝ`. -/
noncomputable def l2norm (v : List ℚ) : ℝ := Real.sqrt ((sumSq v : ℚ) : ℝ)

/-- One embedding of `get_simple_embeddings` (lines 53–67): accumulate,
then divide by the norm when `norm > 0` (lines 63–65). -/
noncomputable def get_simple_embedding (dim : Nat) (text : List Char) : List ℝ :=
  if 0 < l2norm (accumEmbedding dim text) then
    (accumEmbedding dim text).map
      (fun x : ℚ => (x : ℝ) / l2norm (accumEmbedding dim text))
  else (accumEmbedding dim text).map (fun x : ℚ => (x : ℝ))

/-- `get_simple_embeddings` (embedding_service.py lines 47–70): one vector
per input text, in input order.  `get_embeddings` (lines 23–45) delegates
here in the default configuration (`USE_EXTERNAL_EMBEDDINGS` unset), with
`dim` the process-wide `EMBEDDING_DIM` (default 128). -/
noncomputable def get_simple_embeddings (texts : List (List Char)) (dim : Nat) :
    List (List ℝ) :=
  texts.map (get_simple_embedding dim)

/-- Modelled from the spec (spec.md §4.3), independently of the loop: the
un-normalized vector has, at position `j`, the sum of `ord(char)/1000` over
the characters whose position is congruent to `j` modulo the dimension;
the vector is then L2-normalized, except that a vector of exactly zero
norm is left un-normalized. -/
def specAccum (dim : Nat) (text : List Char) : List ℚ :=
  (List.range dim).map fun j =>
    ((text.enum.filter (fun p => p.1 % dim = j)).map
      (fun p => pyOrd p.2 / 1000)).sum

/-- Modelled from the spec (spec.md §4.3): the reference embedder against
which `get_simple_embeddings` is compared. -/
noncomputable def specEmbedding (dim : Nat) (text : List Char) : List ℝ :=
  if l2norm (specAccum dim text) = 0 then
    (specAccum dim text).map (fun x : ℚ => (x : ℝ))
  else
    (specAccum dim text).map
      (fun x : ℚ => (x : ℝ) / l2norm (specAccum dim text))

/-! ## Similarity ranking (embedding_service.py lines 80–88,
qa_service.py lines 17–60, main.py lines 368–421) -/

noncomputable def l2normR (v : List ℝ) : ℝ :=
  Real.sqrt ((v.map (fun x => x * x)).sum)

def dotR (a b : List ℝ) : ℝ := ((a.zip b).map (fun p => p.1 * p.2)).sum

/-- `cosine_similarity` (embedding_service.py lines 80–88). -/
noncomputable def cosine_similarity (a b : List ℝ) : ℝ :=
  if l2normR a = 0 ∨ l2normR b = 0 then 0
  else dotR a b / (l2normR a * l2normR b)

def TOP_K_CHUNKS : Nat := 3

/-- A stored `PDFChunk` row.  The `embedding` column holds a JSON string;
`embedding` here is its deserialization: `some v` when `json.loads`
succeeds with a float vector, `none` when parsing raises. -/
structure ChunkRow where
  pdfId : Nat
  chunkIndex : Nat
  chunkText : List Char
  embedding : Option (List ℝ)

/-- The scoring loop of `answer_question` (qa_service.py lines 34–45) and
of `search_pdfs` (main.py lines 383–404): each chunk is scored inside a
`try` block, so a chunk whose embedding fails to deserialize — or whose
deserialized vector has a length different from the query vector's, which
makes `np.dot` raise — is skipped rather than aborting the request. -/
noncomputable def chunkScores (qe : List ℝ) (chunks : List ChunkRow) :
    List (ChunkRow × ℝ) :=
  chunks.filterMap fun c =>
    match c.embedding with
    | none => none
    | some v =>
      if v.length = qe.length then some (c, cosine_similarity qe v) else none

/-- Insertion step of Python's stable `list.sort(key=key, reverse=True)`:
`a` is placed before the first element whose key is at most `key a`, so
that among equal keys later insertions (of earlier list elements) come
first. -/
def pyInsertDesc {α K : Type} [LinearOrder K] (key : α → K) (a : α) :
    List α → List α
  | [] => [a]
  | b :: l => if key b ≤ key a then a :: b :: l else b :: pyInsertDesc key a l

/-- Python's `list.sort(key=key, reverse=True)`: a stable sort into
descending key order (CPython documents that `reverse=True` preserves the
original order of elements that compare equal). -/
def pySortDescBy {α K : Type} [LinearOrder K] (key : α → K) :
    List α → List α
  | [] => []
  | a :: l => pyInsertDesc key a (pySortDescBy key l)

/-- Python `int(x)` on a float: truncation toward zero. -/
noncomputable def pyInt (x : ℝ) : ℤ := if 0 ≤ x then ⌊x⌋ else -⌊-x⌋

/-- `generate_answer` (qa_service.py lines 62–86) applied to the best
chunk `top_chunks[0]` — the only element the function reads. -/
noncomputable def generate_answer (best : ChunkRow × ℝ) : String :=
  let confidence := pyInt (best.2 * 100)
  if 70 ≤ confidence then
    "Based on the PDF content, I found this information:\n\n" ++
      String.mk best.1.chunkText ++ "\n\nSource: PDF #" ++
      toString best.1.pdfId ++ "\nConfidence: " ++ toString confidence ++ "%"
  else if 40 ≤ confidence then
    "I\x27m not entirely sure, but here\x27s what I found in the PDF:\n\n" ++
      String.mk best.1.chunkText ++ "\n\nSource: PDF #" ++
      toString best.1.pdfId ++ "\nConfidence: " ++ toString confidence ++ "%"
  else
    "I couldn\x27t find a definitive answer, but this might be relevant:\n\n" ++
      String.mk best.1.chunkText ++ "\n\nSource: PDF #" ++
      toString best.1.pdfId ++ "\nConfidence: " ++ toString confidence ++ "%"

/-- The ranked scored-chunk list of `answer_question` (qa_service.py line
48): `chunk_scores.sort(key=lambda x: x[1], reverse=True)`. -/
noncomputable def qa_ranked (dim : Nat) (question : List Char)
    (chunks : List ChunkRow) : List (ChunkRow × ℝ) :=
  pySortDescBy Prod.snd (chunkScores (get_simple_embedding dim question) chunks)

/-- `answer_question` (qa_service.py lines 17–60): embed the question,
score every stored chunk (skipping undecodable ones), stable-sort by
similarity descending, keep the top `TOP_K_CHUNKS`, and answer from the
best chunk; with the two fixed early-return messages of the source. -/
noncomputable def answer_question (dim : Nat) (question : List Char)
    (chunks : List ChunkRow) : String :=
  if chunks.isEmpty then
    "No PDF content available to answer questions. Please upload a PDF first."
  else
    match (qa_ranked dim question chunks).take TOP_K_CHUNKS with
    | [] => "I couldn\x27t find any relevant information in the uploaded PDFs."
    | best :: _ => generate_answer best

/-- A `/search` result row (main.py lines 395–402); the preview text is
the chunk text truncated at 200 characters with an ellipsis. -/
structure SearchResult where
  pdfId : Nat
  chunkIndex : Nat
  previewText : List Char
  score : ℝ

def previewOf (text : List Char) : List Char :=
  if 200 < text.length then text.take 200 ++ "...".toList else text

/-- The retained result rows of `search_pdfs` (main.py lines 383–404), in
chunk input order: each chunk is scored inside a `try` block (undecodable
or wrong-length embeddings are skipped) and kept when its score is
strictly above the 0.3 relevance threshold.  The `pdf_name` lookup of the
source only decorates the row and is omitted here. -/
noncomputable def search_hits (dim : Nat) (query : List Char)
    (chunks : List ChunkRow) : List SearchResult :=
  let qe := get_simple_embedding dim query
  chunks.filterMap fun c =>
    match c.embedding with
    | none => none
    | some v =>
      if v.length = qe.length then
        let score := cosine_similarity qe v
        if (0.3 : ℝ) < score then
          some ⟨c.pdfId, c.chunkIndex, previewOf c.chunkText, score⟩
        else none
      else none

/-- The `/search` endpoint's ranking (main.py lines 406–409):
`results.sort(key=lambda x: x["score"], reverse=True)`. -/
noncomputable def search_ranked (dim : Nat) (query : List Char)
    (chunks : List ChunkRow) : List SearchResult :=
  pySortDescBy SearchResult.score (search_hits dim query chunks)

/-- The `/search` endpoint's response rows (main.py lines 383–411): the
ranked hits truncated to the top 10. -/
noncomputable def search_results (dim : Nat) (query : List Char)
    (chunks : List ChunkRow) : List SearchResult :=
  (search_ranked dim query chunks).take 10

/-! ## Retrieval orchestrator (gemini_service.py lines 183–460) -/

def STOP_WORDS : List (List Char) :=
  (["the", "a", "is", "are", "in", "on", "of", "and", "or", "to", "for",
    "with", "about", "what", "how", "why", "when", "where", "who",
    "which"].map String.toList)

def pyLower (l : List Char) : List Char := l.map Char.toLower

/-- Worker for Python `str.split()` with no argument: split on whitespace
runs, producing no empty words.  `cur` is the current word in reverse. -/
def pySplitWsGo (cur : List Char) : List Char → List (List Char)
  | [] => if cur.isEmpty then [] else [cur.reverse]
  | c :: rest =>
    if isPyWs c then
      if cur.isEmpty then pySplitWsGo [] rest
      else cur.reverse :: pySplitWsGo [] rest
    else pySplitWsGo (c :: cur) rest

def pySplitWs (l : List Char) : List (List Char) := pySplitWsGo [] l

/-- Keyword extraction (gemini_service.py lines 324–328): the lowercased
question's words, with the fixed stop-word set and all words of length at
most 2 discarded. -/
def extract_keywords (question : List Char) : List (List Char) :=
  (pySplitWs (pyLower question)).filter
    (fun w => !STOP_WORDS.contains w && 2 < w.length)

/-- Keyword test for one chunk (gemini_service.py lines 364–366 and
443–445): `any(keyword in chunk_text for keyword in keywords)` on the
lowercased chunk text. -/
def chunkMatches (keywords : List (List Char)) (text : List Char) : Bool :=
  keywords.any fun k => containsSub k (pyLower text)

/-- Relevant-chunk collection: both the single-document loop (lines
363–367) and the cross-document loop (lines 441–446) keep, in input
order, the `(chunk_text, pdf_id)` pairs whose lowercased chunk text
contains at least one keyword. -/
def relevant_chunks (keywords : List (List Char))
    (chunks : List (List Char × Nat)) : List (List Char × Nat) :=
  chunks.filter fun c => chunkMatches keywords c.1

/-- Ranking key of APPROACH 1 (line 449):
`sum(keyword in chunk[0].lower() for keyword in keywords)` — the number of
keyword-list entries contained in the chunk, each counted once no matter
how often it occurs in the chunk. -/
def matchCount (keywords : List (List Char)) (text : List Char) : Nat :=
  (keywords.map fun k => if containsSub k (pyLower text) then 1 else 0).sum

/-- APPROACH 1 ranking (lines 447–449): the retained chunks stable-sorted
by keyword-match count, descending. -/
def ranked_relevant (keywords : List (List Char))
    (chunks : List (List Char × Nat)) : List (List Char × Nat) :=
  pySortDescBy (fun c => matchCount keywords c.1)
    (relevant_chunks keywords chunks)

def CONTEXT_DELIM : List Char := "\n\n---\n\n".toList

/-- Primary-context assembly (lines 451–452): the top 8 ranked chunks
joined by the visible delimiter. -/
def combined_content (keywords : List (List Char))
    (chunks : List (List Char × Nat)) : List Char :=
  List.intercalate CONTEXT_DELIM
    (((ranked_relevant keywords chunks).take 8).map Prod.fst)

/-! ## LLM configuration gate (gemini_service.py lines 40–68 and 315–322,
azure_openai_client.py lines 10–58) -/

/-- The three required connection settings, after the env-var fallback
chains of `_llm_configured` / `_get_azure_config` are resolved. -/
structure LlmEnv where
  apiKey : Option String
  baseUrl : Option String
  deployment : Option String

/-- Python truthiness of `os.environ.get(...)`: `None` and the empty
string are falsy. -/
def pyTruthy : Option String → Bool
  | none => false
  | some s => !s.isEmpty

/-- `_llm_configured` (gemini_service.py lines 40–45), which
`llm_available` returns verbatim. -/
def llm_configured (env : LlmEnv) : Bool :=
  pyTruthy env.apiKey && pyTruthy env.baseUrl && pyTruthy env.deployment

/-- `_env_first` acceptance (azure_openai_client.py lines 10–15): present
and non-blank after stripping. -/
def envPresent : Option String → Bool
  | none => false
  | some s => !s.trim.isEmpty

/-- `_get_azure_config` (azure_openai_client.py lines 34–58) succeeds —
i.e. does not raise `AzureOpenAIConfigError` — exactly when the api key,
base url and deployment are all present. -/
def azure_config_ok (env : LlmEnv) : Bool :=
  envPresent env.apiKey && envPresent env.baseUrl && envPresent env.deployment

def FOLLOWUP_APOLOGY : List Char :=
  ("I apologize, but I\x27m having trouble generating a better answer. " ++
    "Let me try a different approach to help you with your question.").toList

/-- `generate_followup_answer` (gemini_service.py lines 947–983).  The
remote completion together with the `format_code_blocks` and
`add_thinking_effect` post-passes is the opaque collaborator `oracle`
(the spec treats the LLM call as an external text-completion service);
when the Azure configuration is missing the internal `except` catches the
`AzureOpenAIConfigError` and returns the fixed apology string. -/
def generate_followup_answer (env : LlmEnv)
    (oracle : List Char → List Char → List Char)
    (question previous : List Char) : List Char :=
  if azure_config_ok env then oracle question previous else FOLLOWUP_APOLOGY

/-- Outcomes of `answer_question_with_ai`, one constructor per return site
of its prefix (gemini_service.py lines 296–460):
`followupAnswer` is the follow-up early return (lines 301–310, a
`success: True` payload); `configError` is the configuration-error return
(lines 316–322, message "AI services not available. Configure
LLM_API_KEY, LLM_AZURE_BASE_URL, and LLM_AZURE_DEPLOYMENT.");
`pdfNotFound` lines 337–343; `noExtractableContent` lines 345–351;
`noPdfsUploaded` lines 369–388 (the tech-question / conversational
handlers reachable there are product glue outside the spec's core and are
collapsed into this constructor); `noPdfContent` lines 408–430; and
`proceeds` hands the extracted keywords, the retained relevant chunks and
the fallback document contents to the approach-1/2/3 prompt stages
(lines 433 onward). -/
inductive AQResult where
  | followupAnswer (answer : List Char)
  | configError
  | pdfNotFound (pdfId : Nat)
  | noExtractableContent (pdfId : Nat)
  | noPdfsUploaded
  | noPdfContent
  | proceeds (keywords : List (List Char))
      (relevant : List (List Char × Nat)) (contents : List (List Char))
deriving DecidableEq

/-- The persistence collaborator's state, as read by
`answer_question_with_ai`. -/
structure PdfDb where
  pdfs : List (Nat × List Char)
  contents : List (Nat × List Char)
  chunks : List ChunkRow

def dbGetPdf (db : PdfDb) (pid : Nat) : Option (Nat × List Char) :=
  db.pdfs.find? fun p => p.1 == pid

def dbGetContent (db : PdfDb) (pid : Nat) : Option (Nat × List Char) :=
  db.contents.find? fun p => p.1 == pid

def pyTruthyL : Option (List Char) → Bool
  | none => false
  | some s => !s.isEmpty

/-- `answer_question_with_ai` (gemini_service.py lines 183–460), modelled
through its retrieval prefix: the follow-up branch, the LLM-availability
gate, keyword extraction, and the scoped collection of document content
and keyword-matching chunks.  The prompt construction and the
approach-1/2/3 LLM loop that follow are summarized by the `proceeds`
outcome. -/
def answer_question_with_ai (env : LlmEnv)
    (followupOracle : List Char → List Char → List Char) (db : PdfDb)
    (question : List Char) (pdfId : Option Nat) (isFollowup : Bool)
    (previousAnswer : Option (List Char)) : AQResult :=
  if isFollowup && pyTruthyL previousAnswer then
    .followupAnswer
      (generate_followup_answer env followupOracle question
        (previousAnswer.getD []))
  else if !llm_configured env then .configError
  else
    let keywords := extract_keywords question
    match pdfId with
    | some pid =>
      match dbGetPdf db pid with
      | none => .pdfNotFound pid
      | some _ =>
        match dbGetContent db pid with
        | none => .noExtractableContent pid
        | some content =>
          if content.2.isEmpty then .noExtractableContent pid
          else
            .proceeds keywords
              (relevant_chunks keywords
                ((db.chunks.filter (fun c => c.pdfId == pid)).map
                  fun c => (c.chunkText, c.pdfId)))
              [content.2]
    | none =>
      if db.pdfs.isEmpty then .noPdfsUploaded
      else
        let contents := db.pdfs.filterMap fun p =>
          (dbGetContent db p.1).bind fun q =>
            if q.2.isEmpty then none else some q.2
        let rel := relevant_chunks keywords
          (db.chunks.map fun c => (c.chunkText, c.pdfId))
        if contents.isEmpty then .noPdfContent
        else .proceeds keywords rel contents

/-- Scenario chunk for C7: contains the keyword "revenue" exactly once and
does not contain "growth". -/
def chunkRevenueOnce : List Char × Nat :=
  ("The report discusses revenue in brief.".toList, 1)

/-- Scenario chunk for C7: contains "revenue" twice and "growth" once. -/
def chunkRevenueTwiceGrowth : List Char × Nat :=
  ("Strong revenue; revenue growth continued.".toList, 2)

/-! ## Ingestion: `save_pdf_to_db` (pdf_service.py lines 213–306) -/

/-- The three code paths of the chunk-persisting section of
`save_pdf_to_db`: the normal path (lines 248–263), the embedding-failure
path (lines 264–275), and the chunking-failure path (lines 276–288). -/
inductive SaveOutcome where
  | ok
  | embedFail
  | chunkFail
deriving DecidableEq

/-- A persisted `PDFChunk` row as written by `save_pdf_to_db`; `embedding`
is the vector the stored JSON string deserializes to. -/
structure SavedChunk where
  chunkIndex : Nat
  chunkText : List Char
  embedding : List ℝ

/-- The placeholder written by both degradation paths (lines 272 and 285):
`json.dumps([0.0] * 10)`. -/
def placeholderEmbedding : List ℝ := List.replicate 10 0

/-- Content substitution of `save_pdf_to_db` (lines 229–231): an empty or
whitespace-only text is replaced by the fixed placeholder sentence. -/
def save_text (original text : List Char) : List Char :=
  if (pyStrip text).isEmpty then
    "No text could be extracted from this file: ".toList ++ original
  else text

/-- The chunk rows committed by `save_pdf_to_db` (lines 243–288) for one
document, by outcome: on the normal path each chunk is stored with its
`get_embeddings` vector; on embedding failure every chunk is stored with
the 10-element placeholder; on chunking failure a single truncated chunk
is stored with the 10-element placeholder. -/
noncomputable def save_pdf_chunks (dim : Nat) (original text : List Char)
    (outcome : SaveOutcome) : List SavedChunk :=
  let content := save_text original text
  match outcome with
  | .ok =>
    let chunks := split_text_into_chunks content
    ((chunks.zip (get_simple_embeddings chunks dim)).enum).map
      fun p => ⟨p.1, p.2.1, p.2.2⟩
  | .embedFail =>
    ((split_text_into_chunks content).enum).map
      fun p => ⟨p.1, p.2, placeholderEmbedding⟩
  | .chunkFail =>
    [⟨0, if 1000 < content.length then content.take 1000 else content,
      placeholderEmbedding⟩]

/-! ## Properties of the normalizer -/

theorem squeezeRuns_cons (a x : Char) (t : List Char) :
    ∃ t', squeezeRuns a (x :: t) = x :: t' := by
  induction t generalizing x with
  | nil => exact ⟨[], rfl⟩
  | cons d rest ih =>
    by_cases h : x = a ∧ d = a
    · obtain ⟨t', ht'⟩ := ih d
      exact ⟨t', by rw [squeezeRuns, if_pos h, ht', h.1, h.2]⟩
    · exact ⟨squeezeRuns a (d :: rest), by rw [squeezeRuns, if_neg h]⟩

theorem squeezeRuns_subset (a : Char) (l : List Char) :
    squeezeRuns a l ⊆ l := by
  induction l with
  | nil => simp [squeezeRuns]
  | cons c t ih =>
    cases t with
    | nil => simp [squeezeRuns]
    | cons d rest =>
      intro x hx
      rw [squeezeRuns] at hx
      split at hx
      · exact List.mem_cons_of_mem c (ih hx)
      · rcases List.mem_cons.mp hx with rfl | hx
        · exact List.mem_cons_self x _
        · exact List.mem_cons_of_mem c (ih hx)

theorem noRun_squeezeRuns (a : Char) (l : List Char) :
    NoRun a (squeezeRuns a l) := by
  induction l with
  | nil => simp [squeezeRuns, NoRun]
  | cons c t ih =>
    cases t with
    | nil => simp [squeezeRuns, NoRun]
    | cons d rest =>
      rw [squeezeRuns]
      split
      · exact ih
      · rename_i h
        obtain ⟨t', ht'⟩ := squeezeRuns_cons a d rest
        rw [ht']
        exact List.Chain'.cons (fun hc => h ⟨hc.1, hc.2⟩) (ht' ▸ ih)

theorem squeezeRuns_eq_self {a : Char} {l : List Char} (h : NoRun a l) :
    squeezeRuns a l = l := by
  induction l with
  | nil => rfl
  | cons c t ih =>
    cases t with
    | nil => rfl
    | cons d rest =>
      rw [squeezeRuns, if_neg (List.chain'_cons.mp h).1,
        ih (List.chain'_cons.mp h).2]

theorem noRun_squeezeRuns_other {a b : Char} {l : List Char}
    (h : NoRun b l) : NoRun b (squeezeRuns a l) := by
  induction l with
  | nil => simpa [squeezeRuns] using h
  | cons c t ih =>
    cases t with
    | nil => simpa [squeezeRuns] using h
    | cons d rest =>
      rw [squeezeRuns]
      rw [NoRun, List.chain'_cons] at h
      split
      · exact ih h.2
      · obtain ⟨t', ht'⟩ := squeezeRuns_cons a d rest
        rw [ht']
        exact List.Chain'.cons h.1 (ht' ▸ ih h.2)

theorem noRun_of_append_right {a : Char} {l₁ l₂ : List Char}
    (h : NoRun a (l₁ ++ l₂)) : NoRun a l₂ :=
  ((List.chain'_append.mp h).2).1

theorem noRun_reverse {a : Char} {l : List Char} (h : NoRun a l) :
    NoRun a l.reverse := by
  rw [NoRun, List.chain'_reverse]
  exact h.imp fun hx => by simp only [flip]; tauto

theorem noRun_dropWhile {a : Char} {p : Char → Bool} {l : List Char}
    (h : NoRun a l) : NoRun a (l.dropWhile p) := by
  obtain ⟨t, ht⟩ : l.dropWhile p <:+ l := List.dropWhile_suffix p
  exact noRun_of_append_right (ht ▸ h)

theorem noRun_pyStrip {a : Char} {l : List Char} (h : NoRun a l) :
    NoRun a (pyStrip l) := by
  unfold pyStrip dropLeadWs
  exact noRun_dropWhile (noRun_reverse (noRun_dropWhile (noRun_reverse h)))

theorem pyStrip_subset (l : List Char) : pyStrip l ⊆ l := by
  unfold pyStrip dropLeadWs
  intro x hx
  have h1 := (List.dropWhile_suffix (l := (List.dropWhile isPyWs l.reverse).reverse)
    isPyWs).subset hx
  rw [List.mem_reverse] at h1
  have h2 := (List.dropWhile_suffix (l := l.reverse) isPyWs).subset h1
  rwa [List.mem_reverse] at h2

theorem dropWhile_eq_self_of (p : Char → Bool) (l : List Char)
    (h : ∀ c ∈ l.head?, p c = false) : l.dropWhile p = l := by
  cases l with
  | nil => rfl
  | cons a t =>
    rw [List.dropWhile_cons, if_neg]
    simp only [List.head?_cons, Option.mem_def, Option.some.injEq] at h
    simp [h a rfl]

theorem head_dropWhile_false (p : Char → Bool) (l : List Char) :
    ∀ c ∈ (l.dropWhile p).head?, p c = false := by
  induction l with
  | nil => simp
  | cons a t ih =>
    rw [List.dropWhile_cons]
    split
    · exact ih
    · rename_i hpa
      intro c hc
      simp only [List.head?_cons, Option.mem_def, Option.some.injEq] at hc
      subst hc
      simpa using hpa

theorem pyStrip_eq_self {l : List Char}
    (hh : ∀ c ∈ l.head?, isPyWs c = false)
    (hl : ∀ c ∈ l.getLast?, isPyWs c = false) : pyStrip l = l := by
  unfold pyStrip dropLeadWs
  rw [dropWhile_eq_self_of isPyWs l.reverse (by rwa [List.head?_reverse]),
    List.reverse_reverse, dropWhile_eq_self_of isPyWs l hh]

theorem head_pyStrip (l : List Char) :
    ∀ c ∈ (pyStrip l).head?, isPyWs c = false := by
  unfold pyStrip dropLeadWs
  exact head_dropWhile_false isPyWs _

theorem getLast_pyStrip (l : List Char) :
    ∀ c ∈ (pyStrip l).getLast?, isPyWs c = false := by
  intro c hc
  unfold pyStrip dropLeadWs at hc
  set X := (List.dropWhile isPyWs l.reverse).reverse with hX
  have hne : X.dropWhile isPyWs ≠ [] := by
    intro hnil
    rw [hnil] at hc
    simp at hc
  obtain ⟨t, ht⟩ := List.dropWhile_suffix (l := X) isPyWs
  have hlast : (X.dropWhile isPyWs).getLast? = X.getLast? := by
    conv_rhs => rw [← ht]
    exact (List.getLast?_append_of_ne_nil _ hne).symm
  rw [hlast] at hc
  rw [hX, List.getLast?_reverse] at hc
  exact head_dropWhile_false isPyWs l.reverse c hc

theorem clean_text_subset (text : List Char) : clean_text text ⊆ text := by
  unfold clean_text
  intro x hx
  have h1 := pyStrip_subset _ hx
  have h2 := List.mem_of_mem_filter h1
  exact squeezeRuns_subset '\n' text (squeezeRuns_subset ' ' _ h2)

theorem noRun_filter_of_noRun_nl {l : List Char}
    (hall : ∀ c ∈ l, (isPrintable c || c = '\n') = true)
    (h : NoRun '\n' l) :
    NoRun '\n' (l.filter (fun c => isPrintable c || c = '\n')) := by
  rwa [List.filter_eq_self.mpr hall]

/-- On text whose characters are all printable-or-newline, the dropping of
non-printable characters is the identity, and the normalizer's output is a
fixed point of each of its passes. -/
theorem clean_text_eq_self {l : List Char}
    (h1 : NoRun '\n' l) (h2 : NoRun ' ' l)
    (h3 : ∀ c ∈ l, (isPrintable c || c = '\n') = true)
    (hh : ∀ c ∈ l.head?, isPyWs c = false)
    (hl : ∀ c ∈ l.getLast?, isPyWs c = false) :
    clean_text l = l := by
  unfold clean_text
  rw [squeezeRuns_eq_self h1, squeezeRuns_eq_self h2,
    List.filter_eq_self.mpr h3, pyStrip_eq_self hh hl]

theorem clean_text_idem_of_printable {x : List Char}
    (hx : ∀ c ∈ x, (isPrintable c || c = '\n') = true) :
    clean_text (clean_text x) = clean_text x := by
  have hsub := clean_text_subset x
  have hall : ∀ c ∈ clean_text x, (isPrintable c || c = '\n') = true :=
    fun c hc => hx c (hsub hc)
  have hfix : ∀ c ∈ squeezeRuns ' ' (squeezeRuns '\n' x),
      (isPrintable c || c = '\n') = true :=
    fun c hc => hx c (squeezeRuns_subset '\n' x (squeezeRuns_subset ' ' _ hc))
  have h1 : NoRun '\n' (clean_text x) := by
    unfold clean_text
    rw [List.filter_eq_self.mpr hfix]
    exact noRun_pyStrip (noRun_squeezeRuns_other (noRun_squeezeRuns '\n' x))
  have h2 : NoRun ' ' (clean_text x) := by
    unfold clean_text
    rw [List.filter_eq_self.mpr hfix]
    exact noRun_pyStrip (noRun_squeezeRuns ' ' _)
  exact clean_text_eq_self h1 h2 hall
    (head_pyStrip _) (getLast_pyStrip _)

/-! ## Claim C5: idempotence of the normalizer -/

/-- C5, counterexample: `clean_text` is not idempotent.  On `"a\n\t\nb"`
the first pass collapses no newlines (none are adjacent), then deletes the
non-printable tab, leaving `"a\n\nb"`; the second pass collapses the now
adjacent newlines to `"a\nb"`. -/
theorem C5_counterexample :
    clean_text (clean_text ("a\n\t\nb".toList)) ≠
      clean_text ("a\n\t\nb".toList) := by
  decide

/-- C5, amended: `clean_text` is idempotent on every input whose
characters are all printable or newline (so in particular on any text that
the non-printable-character filter does not touch); on such input each of
the four passes of the second application is the identity. -/
theorem C5_clean_text_idempotent_on_printable (x : List Char)
    (hx : ∀ c ∈ x, (isPrintable c || c = '\n') = true) :
    clean_text (clean_text x) = clean_text x :=
  clean_text_idem_of_printable hx

/-- Witness for C5 at the concrete input `"ab  cd\nef"`. -/
theorem C5_witness :
    (∀ c ∈ ("ab  cd\nef".toList), (isPrintable c || c = '\n') = true) ∧
      clean_text (clean_text ("ab  cd\nef".toList)) =
        clean_text ("ab  cd\nef".toList) :=
  ⟨by decide, C5_clean_text_idempotent_on_printable _ (by decide)⟩

/-! ## Stable descending sort: properties of `pySortDescBy` -/

section StableSort

variable {α K : Type} [LinearOrder K] (key : α → K)

theorem mem_pyInsertDesc (a x : α) (l : List α) :
    x ∈ pyInsertDesc key a l ↔ x = a ∨ x ∈ l := by
  induction l with
  | nil => simp [pyInsertDesc]
  | cons b t ih =>
    rw [pyInsertDesc]
    split
    · simp [List.mem_cons]
    · simp only [List.mem_cons, ih]
      tauto

theorem perm_pyInsertDesc (a : α) (l : List α) :
    List.Perm (pyInsertDesc key a l) (a :: l) := by
  induction l with
  | nil => exact List.Perm.refl _
  | cons b t ih =>
    rw [pyInsertDesc]
    split
    · exact List.Perm.refl _
    · exact (ih.cons b).trans (List.Perm.swap a b t)

theorem perm_pySortDescBy (l : List α) : List.Perm (pySortDescBy key l) l := by
  induction l with
  | nil => exact List.Perm.refl _
  | cons a t ih =>
    exact (perm_pyInsertDesc key a (pySortDescBy key t)).trans (ih.cons a)

theorem pairwise_pyInsertDesc (a : α) (l : List α)
    (h : l.Pairwise (fun x y => key y ≤ key x)) :
    (pyInsertDesc key a l).Pairwise (fun x y => key y ≤ key x) := by
  induction l with
  | nil => simp [pyInsertDesc]
  | cons b t ih =>
    rw [pyInsertDesc]
    rcases List.pairwise_cons.mp h with ⟨hb, ht⟩
    split
    · rename_i hba
      refine List.pairwise_cons.mpr ⟨?_, h⟩
      intro x hx
      rcases List.mem_cons.mp hx with rfl | hx
      · exact hba
      · exact le_trans (hb x hx) hba
    · rename_i hba
      refine List.pairwise_cons.mpr ⟨?_, ih ht⟩
      intro x hx
      rcases (mem_pyInsertDesc key a x t).mp hx with rfl | hx
      · exact le_of_lt (not_le.mp hba)
      · exact hb x hx

theorem pairwise_pySortDescBy (l : List α) :
    (pySortDescBy key l).Pairwise (fun x y => key y ≤ key x) := by
  induction l with
  | nil => simp [pySortDescBy]
  | cons a t ih => exact pairwise_pyInsertDesc key a _ ih

theorem filter_pyInsertDesc (a : α) (k : K) (l : List α) :
    (pyInsertDesc key a l).filter (fun x => decide (key x = k)) =
      if key a = k then a :: l.filter (fun x => decide (key x = k))
      else l.filter (fun x => decide (key x = k)) := by
  induction l with
  | nil =>
    by_cases hk : key a = k <;> simp [pyInsertDesc, List.filter, hk]
  | cons b t ih =>
    rw [pyInsertDesc]
    by_cases hba : key b ≤ key a
    · rw [if_pos hba]
      by_cases hk : key a = k <;> simp [List.filter_cons, hk]
    · rw [if_neg hba]
      by_cases hbk : key b = k
      · by_cases hk : key a = k
        · exact absurd (le_of_eq (hbk.trans hk.symm)) hba
        · simp [List.filter_cons, hbk, hk, ih]
      · by_cases hk : key a = k <;> simp [List.filter_cons, hbk, hk, ih]

theorem filter_pySortDescBy (k : K) (l : List α) :
    (pySortDescBy key l).filter (fun x => decide (key x = k)) =
      l.filter (fun x => decide (key x = k)) := by
  induction l with
  | nil => rfl
  | cons a t ih =>
    rw [pySortDescBy, filter_pyInsertDesc, List.filter_cons]
    by_cases hk : key a = k <;> simp [hk, ih]

end StableSort

/-! ## Claims C7 and C8: retrieval ranking -/

theorem chunkScores_fst_sublist (qe : List ℝ) (chunks : List ChunkRow) :
    List.Sublist ((chunkScores qe chunks).map Prod.fst) chunks := by
  induction chunks with
  | nil => simp [chunkScores]
  | cons c t ih =>
    rw [chunkScores, List.filterMap_cons]
    rw [chunkScores] at ih
    cases hc : c.embedding with
    | none => exact ih.cons c
    | some v =>
      by_cases hv : v.length = qe.length
      · simpa [hv] using ih.cons₂ c
      · simpa [hv] using ih.cons c

theorem search_hits_sublist (dim : Nat) (q : List Char)
    (chunks : List ChunkRow) :
    List.Sublist ((search_hits dim q chunks).map fun r => (r.pdfId, r.chunkIndex))
      (chunks.map fun c => (c.pdfId, c.chunkIndex)) := by
  induction chunks with
  | nil => simp [search_hits]
  | cons c t ih =>
    rw [search_hits, List.filterMap_cons, List.map_cons]
    rw [search_hits] at ih
    cases hc : c.embedding with
    | none => exact ih.cons _
    | some v =>
      by_cases hv : v.length = (get_simple_embedding dim q).length
      · by_cases hs : (0.3 : ℝ) < cosine_similarity (get_simple_embedding dim q) v
        · simpa [hv, hs] using ih.cons₂ (c.pdfId, c.chunkIndex)
        · simpa [hv, hs] using ih.cons (c.pdfId, c.chunkIndex)
      · simpa [hv] using ih.cons (c.pdfId, c.chunkIndex)

/-- C7: keyword-overlap retrieval in `answer_question_with_ai`.  The
keywords are the lowercased question's words minus the stop-word set and
words of length at most 2 (demonstrated on a concrete question); the
retained chunks are exactly those containing at least one keyword as a
substring, in input order; the ranking is a permutation of the retained
chunks ordered by descending match count (each keyword counted once per
chunk, not per occurrence); the primary context is the top 8 ranked
chunks joined by the visible delimiter; and on the "revenue growth"
scenario the chunk matching both keywords ranks ahead of the chunk
containing only "revenue", no matter how often "revenue" occurs. -/
theorem C7_keyword_overlap_retrieval (question : List Char)
    (chunks : List (List Char × Nat)) :
    extract_keywords ("What is the Revenue GROWTH".toList) =
        ["revenue".toList, "growth".toList]
    ∧ (∀ c, c ∈ relevant_chunks (extract_keywords question) chunks ↔
        c ∈ chunks ∧ chunkMatches (extract_keywords question) c.1 = true)
    ∧ List.Perm (ranked_relevant (extract_keywords question) chunks)
        (relevant_chunks (extract_keywords question) chunks)
    ∧ (ranked_relevant (extract_keywords question) chunks).Pairwise
        (fun a b => matchCount (extract_keywords question) b.1 ≤
          matchCount (extract_keywords question) a.1)
    ∧ combined_content (extract_keywords question) chunks =
        List.intercalate CONTEXT_DELIM
          (((ranked_relevant (extract_keywords question) chunks).take 8).map
            Prod.fst)
    ∧ ranked_relevant (extract_keywords ("revenue growth".toList))
        [chunkRevenueOnce, chunkRevenueTwiceGrowth] =
        [chunkRevenueTwiceGrowth, chunkRevenueOnce] := by
  refine ⟨by decide, ?_, ?_, ?_, rfl, by decide⟩
  · intro c
    exact List.mem_filter
  · exact perm_pySortDescBy _ _
  · exact pairwise_pySortDescBy _ _

/-- C8: similarity ranking is stable and descending at both ranking
sites.  For `answer_question`: the ranked list (whose `take TOP_K_CHUNKS`
prefix is the top-K selection) is ordered by descending score, and for
every score value the equally-scored entries appear exactly in the order
of the scored list, which itself lists the scorable chunks in input
order.  For the `/search` endpoint: the ranked list and the returned top
10 are ordered by descending score, equal scores keep the retained rows'
input order, and the retained rows follow the input chunk collection's
order. -/
theorem C8_similarity_ranking_stable (dim : Nat) (q : List Char)
    (chunks : List ChunkRow) (k : ℝ) :
    ((qa_ranked dim q chunks).Pairwise (fun a b => b.2 ≤ a.2)
      ∧ ((qa_ranked dim q chunks).take TOP_K_CHUNKS).Pairwise
          (fun a b => b.2 ≤ a.2)
      ∧ (qa_ranked dim q chunks).filter (fun a => decide (a.2 = k)) =
          (chunkScores (get_simple_embedding dim q) chunks).filter
            (fun a => decide (a.2 = k))
      ∧ List.Sublist
          ((chunkScores (get_simple_embedding dim q) chunks).map Prod.fst)
          chunks)
    ∧ ((search_ranked dim q chunks).Pairwise (fun a b => b.score ≤ a.score)
      ∧ (search_results dim q chunks).Pairwise (fun a b => b.score ≤ a.score)
      ∧ (search_ranked dim q chunks).filter (fun r => decide (r.score = k)) =
          (search_hits dim q chunks).filter (fun r => decide (r.score = k))
      ∧ List.Sublist
          ((search_hits dim q chunks).map fun r => (r.pdfId, r.chunkIndex))
          (chunks.map fun c => (c.pdfId, c.chunkIndex))) := by
  constructor
  · refine ⟨pairwise_pySortDescBy _ _, ?_, filter_pySortDescBy _ _ _,
      chunkScores_fst_sublist _ _⟩
    exact (pairwise_pySortDescBy _ _).sublist (List.take_sublist _ _)
  · refine ⟨pairwise_pySortDescBy _ _, ?_, filter_pySortDescBy _ _ _,
      search_hits_sublist _ _ _⟩
    exact (pairwise_pySortDescBy _ _).sublist (List.take_sublist _ _)

/-! ## Claim C9: unconfigured LLM yields the configuration-error outcome -/

/-- C9: when any of the three required connection settings is absent,
`answer_question_with_ai` returns the distinct configuration-error
outcome (the "AI services not available. Configure LLM_API_KEY,
LLM_AZURE_BASE_URL, and LLM_AZURE_DEPLOYMENT." payload) for every
question, every document scope and every database state — in particular
never a NotFound outcome and never an information-not-found result.  (The
claim's quantifiers are the question and the scope; `previous_answer`
keeps its default `None`, under which the follow-up branch preceding the
gate is skipped.) -/
theorem C9_unconfigured_returns_config_error (env : LlmEnv)
    (oracle : List Char → List Char → List Char) (db : PdfDb)
    (question : List Char) (pdfId : Option Nat) (isFollowup : Bool)
    (hmissing : env.apiKey = none ∨ env.baseUrl = none ∨
      env.deployment = none) :
    answer_question_with_ai env oracle db question pdfId isFollowup none =
      AQResult.configError := by
  have hconf : llm_configured env = false := by
    rcases hmissing with h | h | h <;> simp [llm_configured, h, pyTruthy]
  unfold answer_question_with_ai
  simp [pyTruthyL, hconf]

/-- Witness for C9: no api key set, a question about France, cross-document
scope. -/
theorem C9_witness :
    answer_question_with_ai ⟨none, some "u", some "d"⟩ (fun _ _ => [])
      ⟨[], [], []⟩ ("What is the capital of France?".toList) none false
      none = AQResult.configError :=
  C9_unconfigured_returns_config_error ⟨none, some "u", some "d"⟩
    (fun _ _ => []) ⟨[], [], []⟩ ("What is the capital of France?".toList)
    none false (Or.inl rfl)

/-! ## Claim C10: undecodable embeddings are skipped, not fatal -/

/-- C10: in `answer_question`, a chunk whose stored embedding fails to
deserialize never reaches the scored list (first conjunct: every scored
entry carries a decodable embedding), and when every stored chunk fails to
deserialize while chunks exist, the scored list is empty and the function
returns the fixed string "I couldn't find any relevant information in the
uploaded PDFs." instead of raising. -/
theorem C10_undecodable_chunks_skipped (dim : Nat) (question : List Char)
    (chunks : List ChunkRow) :
    (∀ p ∈ chunkScores (get_simple_embedding dim question) chunks,
      p.1.embedding ≠ none)
    ∧ ((∀ c ∈ chunks, c.embedding = none) → chunks ≠ [] →
        answer_question dim question chunks =
          "I couldn\x27t find any relevant information in the uploaded PDFs.") := by
  constructor
  · intro p hp
    induction chunks with
    | nil => simp [chunkScores] at hp
    | cons c t ih =>
      rw [chunkScores, List.filterMap_cons] at hp
      cases hc : c.embedding with
      | none =>
        rw [hc] at hp
        exact ih (by rwa [chunkScores])
      | some v =>
        rw [hc] at hp
        dsimp only at hp
        by_cases hv : v.length = (get_simple_embedding dim question).length
        · rw [if_pos hv] at hp
          rcases List.mem_cons.mp hp with rfl | hp
          · simp [hc]
          · exact ih (by rwa [chunkScores])
        · rw [if_neg hv] at hp
          exact ih (by rwa [chunkScores])
  · intro hfail hne
    have hscores : ∀ cs : List ChunkRow, (∀ c ∈ cs, c.embedding = none) →
        chunkScores (get_simple_embedding dim question) cs = [] := by
      intro cs hcs
      induction cs with
      | nil => rfl
      | cons c t ih =>
        rw [chunkScores, List.filterMap_cons]
        rw [hcs c (List.mem_cons_self c t)]
        exact ih fun d hd => hcs d (List.mem_cons_of_mem _ hd)
    unfold answer_question
    rw [if_neg (by simpa using hne)]
    unfold qa_ranked
    rw [hscores chunks hfail]
    rfl

/-- Witness for C10: a single chunk whose embedding string does not
deserialize. -/
theorem C10_witness :
    answer_question 128 ("q".toList)
      [⟨1, 0, ("x".toList), none⟩] =
      "I couldn\x27t find any relevant information in the uploaded PDFs." :=
  (C10_undecodable_chunks_skipped 128 ("q".toList)
    [⟨1, 0, ("x".toList), none⟩]).2
    (fun c hc => by rw [List.mem_singleton.mp hc]) (by simp)

/-! ## Claim C6: the embedder against the spec's reference definition -/

theorem length_bumpAt (v : List ℚ) (i : Nat) (x : ℚ) :
    (bumpAt v i x).length = v.length := by
  simp [bumpAt]

theorem getD_bumpAt (v : List ℚ) (i j : Nat) (x : ℚ) :
    (bumpAt v i x).getD j 0 =
      if i = j ∧ j < v.length then v.getD j 0 + x else v.getD j 0 := by
  unfold bumpAt
  rw [List.getD_eq_getElem?_getD, List.getElem?_set]
  by_cases hij : i = j
  · subst hij
    by_cases hlt : i < v.length
    · rw [if_pos rfl, if_pos hlt, if_pos ⟨rfl, hlt⟩]
      simp
    · rw [if_pos rfl, if_neg hlt, if_neg (by tauto)]
      rw [List.getD_eq_getElem?_getD, List.getElem?_eq_none (by omega)]
  · rw [if_neg hij, if_neg (by tauto), List.getD_eq_getElem?_getD]

theorem length_foldl_bump (dim : Nat) (ps : List (Nat × Char)) (v : List ℚ) :
    (ps.foldl (fun w p => bumpAt w (p.1 % dim) (pyOrd p.2 / 1000)) v).length =
      v.length := by
  induction ps generalizing v with
  | nil => rfl
  | cons p rest ih =>
    rw [List.foldl_cons, ih, length_bumpAt]

theorem foldl_bump_getD (dim : Nat) (ps : List (Nat × Char)) (v : List ℚ)
    (hv : v.length = dim) (j : Nat) (hj : j < dim) :
    (ps.foldl (fun w p => bumpAt w (p.1 % dim) (pyOrd p.2 / 1000)) v).getD j 0 =
      v.getD j 0 +
        ((ps.filter (fun p => p.1 % dim = j)).map
          (fun p => pyOrd p.2 / 1000)).sum := by
  induction ps generalizing v with
  | nil => simp
  | cons p rest ih =>
    rw [List.foldl_cons, List.filter_cons]
    have hlen : (bumpAt v (p.1 % dim) (pyOrd p.2 / 1000)).length = dim := by
      rw [length_bumpAt, hv]
    rw [ih _ hlen, getD_bumpAt]
    by_cases hpj : p.1 % dim = j
    · rw [if_pos ⟨hpj, by omega⟩]
      simp [hpj]
      ring
    · rw [if_neg (by tauto)]
      simp [hpj]

theorem length_accumEmbedding (dim : Nat) (text : List Char) :
    (accumEmbedding dim text).length = dim := by
  unfold accumEmbedding
  rw [length_foldl_bump, List.length_replicate]

theorem length_specAccum (dim : Nat) (text : List Char) :
    (specAccum dim text).length = dim := by
  simp [specAccum]

theorem accumEmbedding_eq_specAccum (dim : Nat) (text : List Char) :
    accumEmbedding dim text = specAccum dim text := by
  apply List.ext_getElem
  · rw [length_accumEmbedding, length_specAccum]
  · intro i h1 h2
    have hi : i < dim := by rwa [length_accumEmbedding] at h1
    have hgd : (accumEmbedding dim text).getD i 0 =
        ((text.enum.filter (fun p => p.1 % dim = i)).map
          (fun p => pyOrd p.2 / 1000)).sum := by
      unfold accumEmbedding
      rw [foldl_bump_getD dim text.enum _ (List.length_replicate dim 0) i hi]
      rw [List.getD_eq_getElem?_getD, List.getElem?_replicate, if_pos hi]
      simp
    have h1' := h1
    rw [List.getD_eq_getElem?_getD, List.getElem?_eq_getElem h1'] at hgd
    simp only [Option.getD_some] at hgd
    rw [hgd]
    unfold specAccum
    rw [List.getElem_map, List.getElem_range]

theorem l2norm_nonneg (v : List ℚ) : 0 ≤ l2norm v := Real.sqrt_nonneg _

/-- The embedder agrees with the spec's reference definition: the
accumulation loop computes exactly the congruence-class sums, and the
`norm > 0` guard of the code coincides with the spec's "unless the norm is
exactly zero" since the norm is non-negative. -/
theorem get_simple_embedding_eq_spec (dim : Nat) (text : List Char) :
    get_simple_embedding dim text = specEmbedding dim text := by
  unfold get_simple_embedding specEmbedding
  rw [accumEmbedding_eq_specAccum]
  by_cases h : l2norm (specAccum dim text) = 0
  · rw [if_neg (by rw [h]; exact lt_irrefl 0), if_pos h]
  · rw [if_pos (lt_of_le_of_ne (l2norm_nonneg _) (Ne.symm h)), if_neg h]

theorem length_get_simple_embedding (dim : Nat) (text : List Char) :
    (get_simple_embedding dim text).length = dim := by
  unfold get_simple_embedding
  split <;> rw [List.length_map, length_accumEmbedding]

/-- C6: `get_simple_embeddings` matches the spec's reference definition:
the batch of N texts yields exactly N vectors in input order, each equal
to the spec's reference embedding (congruence-class accumulation of
`ord(char)/1000`, then division by the Euclidean norm unless that norm is
exactly zero); every vector has length `dim`; the empty string yields the
all-zero un-normalized vector; and the embedder is deterministic (equal
texts yield equal vectors — definitional for the pure embedding
function). -/
theorem C6_embedder_matches_spec (texts : List (List Char)) (dim : Nat) :
    get_simple_embeddings texts dim = texts.map (specEmbedding dim)
    ∧ (get_simple_embeddings texts dim).length = texts.length
    ∧ (∀ e ∈ get_simple_embeddings texts dim, e.length = dim)
    ∧ get_simple_embedding dim [] = List.replicate dim (0 : ℝ)
    ∧ (∀ t1 t2 : List Char, t1 = t2 →
        get_simple_embedding dim t1 = get_simple_embedding dim t2) := by
  refine ⟨?_, ?_, ?_, ?_, ?_⟩
  · unfold get_simple_embeddings
    exact List.map_congr_left fun t _ => get_simple_embedding_eq_spec dim t
  · simp [get_simple_embeddings]
  · intro e he
    obtain ⟨t, _, rfl⟩ := List.mem_map.mp he
    exact length_get_simple_embedding dim t
  · unfold get_simple_embedding
    have hacc : accumEmbedding dim [] = List.replicate dim (0 : ℚ) := rfl
    rw [hacc]
    have hnorm : l2norm (List.replicate dim (0 : ℚ)) = 0 := by
      unfold l2norm
      have : sumSq (List.replicate dim (0 : ℚ)) = 0 := by
        simp [sumSq]
      rw [this]
      simp
    rw [if_neg (by rw [hnorm]; exact lt_irrefl 0)]
    simp [List.map_replicate]
  · intro t1 t2 h
    rw [h]

/-- Witness for C6 at a concrete batch and dimension, exercising the
per-vector length clause at a member and the determinism clause. -/
theorem C6_witness :
    get_simple_embeddings [("ab".toList)] 4 =
        [specEmbedding 4 ("ab".toList)]
    ∧ (get_simple_embedding 4 ("ab".toList)).length = 4
    ∧ get_simple_embedding 4 [] = List.replicate 4 (0 : ℝ) := by
  obtain ⟨h1, _, h3, h4, _⟩ := C6_embedder_matches_spec [("ab".toList)] 4
  exact ⟨h1, h3 _ (by simp [get_simple_embeddings]), h4⟩

/-! ## Claim C1: persisted embedding dimensions -/

theorem map_snd_enum {α β : Type} (f : α → β) (l : List α) :
    l.enum.map (fun p => f p.2) = l.map f := by
  rw [show (fun p : Nat × α => f p.2) = f ∘ Prod.snd from rfl,
    ← List.map_map, List.enum_map_snd]

/-- C1, counterexample: on the embedding-failure degradation path a
persisted chunk's embedding deserializes to the fixed 10-element
placeholder, not to a vector of the configured dimension 128. -/
theorem C1_counterexample :
    ((save_pdf_chunks 128 ("doc.pdf".toList) ("hello world".toList)
        SaveOutcome.embedFail).map fun c => c.embedding.length) = [10]
    ∧ (10 : Nat) ≠ 128 := by
  constructor
  · rw [show save_pdf_chunks 128 ("doc.pdf".toList) ("hello world".toList)
        SaveOutcome.embedFail =
        ((split_text_into_chunks
          (save_text ("doc.pdf".toList) ("hello world".toList))).enum).map
          (fun p => ⟨p.1, p.2, placeholderEmbedding⟩) from rfl]
    rw [List.map_map]
    rw [show split_text_into_chunks
        (save_text ("doc.pdf".toList) ("hello world".toList)) =
        [("hello world".toList)] by decide]
    simp [placeholderEmbedding]
  · decide

/-- C1, amended: the dimension invariant holds only on the normal path,
where every persisted chunk's embedding has exactly the configured
dimension; the embedding-failure path persists a 10-element placeholder
for every chunk, and the chunking-failure path persists a single chunk
with a 10-element placeholder, so the shared-dimension invariant fails on
the degradation paths whenever the configured dimension is not 10. -/
theorem C1_embedding_dimensions_by_path (dim : Nat)
    (original text : List Char) :
    ((save_pdf_chunks dim original text SaveOutcome.ok).map
        fun c => c.embedding.length) =
      List.replicate (split_text_into_chunks (save_text original text)).length
        dim
    ∧ ((save_pdf_chunks dim original text SaveOutcome.embedFail).map
        fun c => c.embedding.length) =
      List.replicate (split_text_into_chunks (save_text original text)).length
        10
    ∧ ((save_pdf_chunks dim original text SaveOutcome.chunkFail).map
        fun c => c.embedding.length) = [10] := by
  refine ⟨?_, ?_, ?_⟩
  · show (((split_text_into_chunks (save_text original text)).zip
        (get_simple_embeddings (split_text_into_chunks (save_text original text))
          dim)).enum.map (fun p => (⟨p.1, p.2.1, p.2.2⟩ : SavedChunk))).map
        (fun c => c.embedding.length) = _
    rw [List.map_map]
    rw [show ((fun c : SavedChunk => c.embedding.length) ∘
        fun p : Nat × (List Char × List ℝ) => (⟨p.1, p.2.1, p.2.2⟩ : SavedChunk)) =
        (fun p : Nat × (List Char × List ℝ) => p.2.2.length) from rfl]
    rw [map_snd_enum (fun q : List Char × List ℝ => q.2.length)]
    rw [List.eq_replicate_iff]
    constructor
    · rw [List.length_map, List.length_zip]
      simp [get_simple_embeddings]
    · intro b hb
      obtain ⟨q, hq, rfl⟩ := List.mem_map.mp hb
      obtain ⟨-, h2⟩ := List.of_mem_zip hq
      obtain ⟨t, -, ht⟩ := List.mem_map.mp h2
      rw [← ht, length_get_simple_embedding]
  · show (((split_text_into_chunks (save_text original text)).enum).map
        (fun p => (⟨p.1, p.2, placeholderEmbedding⟩ : SavedChunk))).map
        (fun c => c.embedding.length) = _
    rw [List.map_map]
    rw [show ((fun c : SavedChunk => c.embedding.length) ∘
        fun p : Nat × List Char => (⟨p.1, p.2, placeholderEmbedding⟩ : SavedChunk)) =
        (fun p : Nat × List Char => 10) from rfl]
    rw [show (fun p : Nat × List Char => 10) =
        (fun p : Nat × List Char => (fun _ : List Char => 10) p.2) from rfl]
    rw [map_snd_enum (fun _ : List Char => 10)]
    rw [List.map_const']
  · simp [save_pdf_chunks, placeholderEmbedding]

/-! ## Paragraph-splitting lemmas -/

theorem noRun_of_not_mem {a : Char} {l : List Char} (h : a ∉ l) :
    NoRun a l := by
  induction l with
  | nil => exact List.chain'_nil
  | cons c t ih =>
    cases t with
    | nil => exact List.chain'_singleton c
    | cons d rest =>
      refine List.chain'_cons.mpr ⟨?_, ih fun hm => h (List.mem_cons_of_mem c hm)⟩
      intro hcd
      exact h (hcd.1 ▸ List.mem_cons_self c _)

theorem noRun_append {a : Char} {l₁ l₂ : List Char} (h1 : NoRun a l₁)
    (h2 : NoRun a l₂)
    (hb : ∀ x ∈ l₁.getLast?, ∀ y ∈ l₂.head?, ¬(x = a ∧ y = a)) :
    NoRun a (l₁ ++ l₂) :=
  List.chain'_append.mpr ⟨h1, h2, hb⟩

theorem splitParasGo_nil (cur : List Char) :
    splitParasGo cur [] = [cur.reverse] := by
  rw [splitParasGo]

theorem splitParasGo_cons_other (cur : List Char) (c : Char)
    (hc : c ≠ '\n') (rest : List Char) :
    splitParasGo cur (c :: rest) = splitParasGo (c :: cur) rest := by
  rw [splitParasGo, if_neg hc]

theorem sepTail_eq_nil_iff (t : List Char) :
    sepTail t = [] ↔ '\n' ∉ t := by
  unfold sepTail
  rw [List.reverse_eq_nil_iff, List.dropWhile_eq_nil_iff]
  constructor
  · intro h hm
    have := h '\n' (List.mem_reverse.mpr hm)
    simp at this
  · intro h x hx
    simp only [Bool.not_eq_eq_eq_not, Bool.not_true, decide_eq_false_iff_not]
    intro hxeq
    exact h (hxeq ▸ List.mem_reverse.mp hx)

theorem splitParasGo_cons_nl_nosep (cur : List Char) (rest : List Char)
    (hsep : '\n' ∉ rest.takeWhile isPyWs) :
    splitParasGo cur ('\n' :: rest) = splitParasGo ('\n' :: cur) rest := by
  rw [splitParasGo, if_pos rfl]
  rw [show (sepTail (rest.takeWhile isPyWs)).isEmpty = true by
    rw [List.isEmpty_iff, sepTail_eq_nil_iff]; exact hsep]
  rw [if_pos rfl]

theorem splitParasGo_cons_nl_sep (cur : List Char) (rest : List Char)
    (hsep : '\n' ∈ rest.takeWhile isPyWs) :
    splitParasGo cur ('\n' :: rest) =
      cur.reverse :: splitParasGo []
        (rest.drop (sepTail (rest.takeWhile isPyWs)).length) := by
  rw [splitParasGo, if_pos rfl]
  rw [show (sepTail (rest.takeWhile isPyWs)).isEmpty = false by
    rw [Bool.eq_false_iff, Ne, List.isEmpty_iff, sepTail_eq_nil_iff]
    exact fun h => h hsep]
  rw [if_neg (by simp)]

theorem splitParasGo_append_noNl {l : List Char} (hl : '\n' ∉ l)
    (cur rest : List Char) :
    splitParasGo cur (l ++ rest) = splitParasGo (l.reverse ++ cur) rest := by
  induction l generalizing cur with
  | nil => simp
  | cons c t ih =>
    have hc : c ≠ '\n' := fun h => hl (h ▸ List.mem_cons_self c t)
    rw [List.cons_append, splitParasGo_cons_other _ c hc,
      ih (fun h => hl (List.mem_cons_of_mem c h)) (c :: cur)]
    simp

theorem splitParasGo_noNl {l : List Char} (hl : '\n' ∉ l) (cur : List Char) :
    splitParasGo cur l = [cur.reverse ++ l] := by
  have := splitParasGo_append_noNl hl cur []
  rw [List.append_nil] at this
  rw [this, splitParasGo_nil]
  simp

theorem split_ws_paragraphs_noNl {l : List Char} (hl : '\n' ∉ l) :
    split_ws_paragraphs l = [l] := by
  unfold split_ws_paragraphs
  rw [splitParasGo_noNl hl]
  rfl

theorem splitParasGo_pieces_noRun :
    ∀ (n : Nat) (l : List Char), l.length ≤ n → ∀ cur : List Char,
      NoRun '\n' cur.reverse →
      (cur.head? = some '\n' → l.head? ≠ some '\n') →
      ∀ piece ∈ splitParasGo cur l, NoRun '\n' piece := by
  intro n
  induction n with
  | zero =>
    intro l hl cur hcur _ piece hp
    rw [List.length_eq_zero.mp (Nat.le_zero.mp hl), splitParasGo_nil] at hp
    rw [List.mem_singleton.mp hp]
    exact hcur
  | succ n ih =>
    intro l hl cur hcur hhead piece hp
    cases l with
    | nil =>
      rw [splitParasGo_nil] at hp
      rw [List.mem_singleton.mp hp]
      exact hcur
    | cons c rest =>
      by_cases hc : c = '\n'
      · subst hc
        by_cases hsep : '\n' ∈ rest.takeWhile isPyWs
        · rw [splitParasGo_cons_nl_sep _ _ hsep] at hp
          rcases List.mem_cons.mp hp with rfl | hp
          · exact hcur
          · refine ih _ ?_ [] List.chain'_nil (by simp) piece hp
            rw [List.length_drop]
            rw [List.length_cons] at hl
            omega
        · rw [splitParasGo_cons_nl_nosep _ _ hsep] at hp
          refine ih rest ?_ ('\n' :: cur) ?_ ?_ piece hp
          · rw [List.length_cons] at hl
            omega
          · rw [List.reverse_cons]
            refine noRun_append hcur (List.chain'_singleton '\n') ?_
            intro x hx y _ hxy
            rw [List.getLast?_reverse] at hx
            exact hhead (hxy.1 ▸ hx) rfl
          · intro _ hr
            apply hsep
            cases rest with
            | nil => simp at hr
            | cons d t =>
              have hd : d = '\n' := by simpa using hr
              subst hd
              rw [List.takeWhile_cons, if_pos (by decide)]
              exact List.mem_cons_self _ _
      · rw [splitParasGo_cons_other _ c hc] at hp
        refine ih rest ?_ (c :: cur) ?_ ?_ piece hp
        · rw [List.length_cons] at hl
          omega
        · rw [List.reverse_cons]
          refine noRun_append hcur (List.chain'_singleton c) ?_
          intro x _ y hy hxy
          have hyc : c = y := by simpa using hy
          exact hc (hyc.symm ▸ hxy.2)
        · intro hch
          have : c = '\n' := by simpa using hch
          exact absurd this hc

theorem split_ws_paragraphs_pieces_noRun (text : List Char) :
    ∀ piece ∈ split_ws_paragraphs text, NoRun '\n' piece :=
  splitParasGo_pieces_noRun text.length text le_rfl [] List.chain'_nil
    (by simp)

theorem paragraphs_good (text : List Char) :
    ∀ p ∈ paragraphs text, GoodP p := by
  intro p hp
  unfold paragraphs at hp
  rw [List.mem_filter] at hp
  obtain ⟨hmem, hne⟩ := hp
  obtain ⟨piece, hpc, rfl⟩ := List.mem_map.mp hmem
  exact ⟨by simpa using hne, head_pyStrip piece, getLast_pyStrip piece,
    noRun_pyStrip (split_ws_paragraphs_pieces_noRun text piece hpc)⟩

/-! ## Lemmas on the blank-line joins and their removal -/

theorem removeNlNl_nil : removeNlNl [] = [] := rfl

theorem removeNlNl_singleton (c : Char) : removeNlNl [c] = [c] := rfl

theorem removeNlNl_cons_cons (a b : Char) (rest : List Char) :
    removeNlNl (a :: b :: rest) =
      if a = '\n' ∧ b = '\n' then removeNlNl rest
      else a :: removeNlNl (b :: rest) := by
  rw [removeNlNl]

theorem removeNlNl_eq_self {l : List Char} (h : NoRun '\n' l) :
    removeNlNl l = l := by
  induction l with
  | nil => rfl
  | cons a t ih =>
    cases t with
    | nil => rfl
    | cons b rest =>
      rw [removeNlNl_cons_cons, if_neg (List.chain'_cons.mp h).1,
        ih (List.chain'_cons.mp h).2]

theorem removeNlNl_append :
    ∀ (n : Nat) (l₁ : List Char), l₁.length ≤ n →
      (∀ x ∈ l₁.getLast?, x ≠ '\n') → ∀ l₂ : List Char,
      removeNlNl (l₁ ++ l₂) = removeNlNl l₁ ++ removeNlNl l₂ := by
  intro n
  induction n with
  | zero =>
    intro l₁ hl _ l₂
    rw [List.length_eq_zero.mp (Nat.le_zero.mp hl)]
    simp [removeNlNl_nil]
  | succ n ih =>
    intro l₁ hl hlast l₂
    match l₁ with
    | [] => simp [removeNlNl_nil]
    | [a] =>
      have ha : a ≠ '\n' := hlast a rfl
      cases l₂ with
      | nil => simp [removeNlNl_nil]
      | cons b t =>
        rw [List.singleton_append, removeNlNl_cons_cons,
          if_neg (fun hab => ha hab.1), removeNlNl_singleton,
          List.singleton_append]
    | a :: b :: t =>
      have hlast' : ∀ x ∈ (b :: t).getLast?, x ≠ '\n' := by
        rwa [List.getLast?_cons_cons] at hlast
      rw [List.cons_append, List.cons_append, removeNlNl_cons_cons,
        removeNlNl_cons_cons]
      by_cases hab : a = '\n' ∧ b = '\n'
      · rw [if_pos hab, if_pos hab]
        cases t with
        | nil => exact absurd hab.2 (hlast b rfl)
        | cons x t' =>
          have hlt : (x :: t').length ≤ n := by
            simp only [List.length_cons] at hl ⊢
            omega
          have hlast'' : ∀ y ∈ (x :: t').getLast?, y ≠ '\n' := by
            rwa [List.getLast?_cons_cons] at hlast'
          exact ih (x :: t') hlt hlast'' l₂
      · rw [if_neg hab, if_neg hab, ← List.cons_append]
        have hlt : (b :: t).length ≤ n := by
          simp only [List.length_cons] at hl ⊢
          omega
        rw [ih (b :: t) hlt hlast' l₂, List.cons_append]

theorem goodP_last_ne_nl {q : List Char} (hq : GoodP q) :
    ∀ x ∈ q.getLast?, x ≠ '\n' := by
  intro x hx hxe
  have := hq.2.2.1 x hx
  rw [hxe] at this
  simp [isPyWs] at this

theorem joinParas_cons_cons (q q' : List Char) (t : List (List Char)) :
    joinParas (q :: q' :: t) = q ++ '\n' :: '\n' :: joinParas (q' :: t) := by
  rw [joinParas]
  simp

theorem joinParas_props :
    ∀ qs : List (List Char), qs ≠ [] → (∀ q ∈ qs, GoodP q) →
      joinParas qs ≠ []
      ∧ (∀ c ∈ (joinParas qs).head?, isPyWs c = false)
      ∧ (∀ c ∈ (joinParas qs).getLast?, isPyWs c = false)
      ∧ removeNlNl (joinParas qs) = qs.flatten := by
  intro qs
  induction qs with
  | nil => intro h; exact absurd rfl h
  | cons q t ih =>
    intro _ hgood
    have hq : GoodP q := hgood q (List.mem_cons_self q t)
    cases t with
    | nil =>
      refine ⟨hq.1, hq.2.1, hq.2.2.1, ?_⟩
      rw [show joinParas [q] = q from rfl, removeNlNl_eq_self hq.2.2.2]
      simp
    | cons q' t' =>
      obtain ⟨hne, hhead, hlast, hrem⟩ :=
        ih (by simp) fun p hp => hgood p (List.mem_cons_of_mem q hp)
      rw [joinParas_cons_cons]
      refine ⟨by simp [hq.1], ?_, ?_, ?_⟩
      · rw [List.head?_append_of_ne_nil _ hq.1]
        exact hq.2.1
      · intro c hc
        rw [List.getLast?_append_of_ne_nil _ (by simp)] at hc
        obtain ⟨j, js, hJ⟩ := List.exists_cons_of_ne_nil hne
        rw [hJ, List.getLast?_cons_cons, List.getLast?_cons_cons] at hc
        exact hlast c (by rw [hJ]; exact hc)
      · rw [removeNlNl_append q.length q le_rfl (goodP_last_ne_nl hq),
          removeNlNl_eq_self hq.2.2.2, removeNlNl_cons_cons,
          if_pos ⟨rfl, rfl⟩, hrem]
        simp

/-! ## Content preservation of the paragraph loop -/

theorem chunkParas_nil (inCode : Bool) (cur : List Char) :
    chunkParas [] inCode cur = if cur.isEmpty then [] else [pyStrip cur] := by
  rw [chunkParas]

theorem chunkParas_cons (p : List Char) (rest : List (List Char))
    (inCode : Bool) (cur : List Char) :
    chunkParas (p :: rest) inCode cur =
      if MAX_CHUNK_SIZE < cur.length + p.length ∧
          MIN_CHUNK_SIZE ≤ cur.length then
        pyStrip cur :: chunkParas rest (nextInCode inCode p) p
      else chunkParas rest (nextInCode inCode p) (joinPara cur p) := by
  rw [chunkParas, ite_self]

theorem joinParas_append_singleton (p : List Char) :
    ∀ qs : List (List Char), qs ≠ [] →
      joinParas (qs ++ [p]) = joinParas qs ++ '\n' :: '\n' :: p := by
  intro qs
  induction qs with
  | nil => intro h; exact absurd rfl h
  | cons q t ih =>
    intro _
    cases t with
    | nil =>
      rw [List.cons_append, List.nil_append, joinParas_cons_cons]
      rfl
    | cons q' t' =>
      rw [List.cons_append, List.cons_append, joinParas_cons_cons,
        ← List.cons_append, ih (by simp), joinParas_cons_cons]
      simp

theorem isPyWs_false_ne_nl {x : Char} (h : isPyWs x = false) : x ≠ '\n' := by
  intro hx
  rw [hx] at h
  simp [isPyWs] at h

theorem chunkParas_content (ps : List (List Char)) :
    ∀ (inCode : Bool) (qs : List (List Char)),
      (∀ p ∈ ps, GoodP p) → (∀ q ∈ qs, GoodP q) →
      removeNlNl (List.flatten (chunkParas ps inCode (joinParas qs))) =
        qs.flatten ++ ps.flatten := by
  induction ps with
  | nil =>
    intro inCode qs _ hqs
    rw [chunkParas_nil]
    by_cases hqe : qs = []
    · subst hqe
      simp [joinParas, removeNlNl_nil]
    · obtain ⟨hne, hhead, hlast, hrem⟩ := joinParas_props qs hqe hqs
      rw [if_neg (by simp [List.isEmpty_iff, hne])]
      rw [List.flatten_cons, List.flatten_nil, List.append_nil,
        pyStrip_eq_self hhead hlast, hrem]
      simp
  | cons p rest ih =>
    intro inCode qs hps hqs
    have hp : GoodP p := hps p (List.mem_cons_self p rest)
    have hrest : ∀ x ∈ rest, GoodP x :=
      fun x hx => hps x (List.mem_cons_of_mem p hx)
    have hpgood : ∀ q ∈ [p], GoodP q := by
      intro q hq
      rw [List.mem_singleton.mp hq]
      exact hp
    rw [chunkParas_cons]
    by_cases hcond : MAX_CHUNK_SIZE < (joinParas qs).length + p.length ∧
        MIN_CHUNK_SIZE ≤ (joinParas qs).length
    · rw [if_pos hcond]
      have hqe : qs ≠ [] := by
        intro h
        subst h
        have := hcond.2
        simp [joinParas, MIN_CHUNK_SIZE] at this
      obtain ⟨hne, hhead, hlast, hrem⟩ := joinParas_props qs hqe hqs
      rw [List.flatten_cons, pyStrip_eq_self hhead hlast]
      rw [removeNlNl_append (joinParas qs).length _ le_rfl
        (fun x hx => isPyWs_false_ne_nl (hlast x hx)) _, hrem]
      have hih := ih (nextInCode inCode p) [p] hrest hpgood
      rw [show joinParas [p] = p from rfl] at hih
      rw [hih]
      simp
    · rw [if_neg hcond]
      by_cases hqe : qs = []
      · subst hqe
        have hjp : joinPara (joinParas []) p = joinParas [p] := by
          simp [joinPara, joinParas]
        rw [hjp]
        have hih := ih (nextInCode inCode p) [p] hrest hpgood
        rw [hih]
        simp
      · have hne := (joinParas_props qs hqe hqs).1
        have hjp : joinPara (joinParas qs) p = joinParas (qs ++ [p]) := by
          rw [joinPara, if_neg (by simp [List.isEmpty_iff, hne]),
            joinParas_append_singleton p qs hqe]
        rw [hjp]
        have hih := ih (nextInCode inCode p) (qs ++ [p]) hrest (by
          intro q hq
          rcases List.mem_append.mp hq with hq | hq
          · exact hqs q hq
          · rw [List.mem_singleton.mp hq]
            exact hp)
        rw [hih]
        simp

/-! ## Concrete chunker computations -/

theorem head?_replicate_succ (n : Nat) (a : Char) :
    (List.replicate (n + 1) a).head? = some a := by
  simp [List.replicate_succ]

theorem getLast?_replicate_succ (n : Nat) (a : Char) :
    (List.replicate (n + 1) a).getLast? = some a := by
  rw [List.replicate_succ', List.getLast?_append_of_ne_nil _ (by simp)]
  rfl

theorem not_mem_replicate {x a : Char} (h : x ≠ a) (n : Nat) :
    x ∉ List.replicate n a := by
  simp only [List.mem_replicate, not_and]
  intro _
  exact h

theorem replicate_succ_ne_nil (n : Nat) (a : Char) :
    List.replicate (n + 1) a ≠ [] := by
  rw [List.replicate_succ]
  simp

theorem isEmpty_replicate_succ (n : Nat) (a : Char) :
    (List.replicate (n + 1) a).isEmpty = false := by
  rw [List.replicate_succ]
  rfl

theorem pyStrip_replicate_succ (n : Nat) (a : Char)
    (haws : isPyWs a = false) :
    pyStrip (List.replicate (n + 1) a) = List.replicate (n + 1) a := by
  apply pyStrip_eq_self
  · intro c hc
    rw [head?_replicate_succ] at hc
    rw [show c = a from (by simpa using hc : a = c).symm]
    exact haws
  · intro c hc
    rw [getLast?_replicate_succ] at hc
    rw [show c = a from (by simpa using hc : a = c).symm]
    exact haws

theorem clean_text_replicate_succ (n : Nat) (a : Char)
    (hpr : isPrintable a = true) (haws : isPyWs a = false) :
    clean_text (List.replicate (n + 1) a) = List.replicate (n + 1) a := by
  have hnl : a ≠ '\n' := fun h => by rw [h] at haws; simp [isPyWs] at haws
  have hsp : a ≠ ' ' := fun h => by rw [h] at haws; simp [isPyWs] at haws
  apply clean_text_eq_self
  · exact noRun_of_not_mem (not_mem_replicate (fun h => hnl h.symm) _)
  · exact noRun_of_not_mem (not_mem_replicate (fun h => hsp h.symm) _)
  · intro c hc
    rw [show c = a from (List.mem_replicate.mp hc).2, hpr]
    simp
  · intro c hc
    rw [head?_replicate_succ] at hc
    rw [show c = a from (by simpa using hc : a = c).symm]
    exact haws
  · intro c hc
    rw [getLast?_replicate_succ] at hc
    rw [show c = a from (by simpa using hc : a = c).symm]
    exact haws

theorem paragraphs_noNl {l : List Char} (hnl : '\n' ∉ l)
    (hstrip : pyStrip l = l) (hne : l ≠ []) : paragraphs l = [l] := by
  unfold paragraphs
  rw [split_ws_paragraphs_noNl hnl]
  simp [hstrip, hne]

theorem chunkParas_repA4000 :
    chunkParas [List.replicate 4000 'A'] false [] =
      [List.replicate 4000 'A'] := by
  rw [chunkParas_cons,
    if_neg (by simp only [List.length_nil, List.length_replicate]; decide),
    show joinPara [] (List.replicate 4000 'A') = List.replicate 4000 'A'
      from rfl,
    chunkParas_nil,
    if_neg (by rw [isEmpty_replicate_succ 3999 'A']; simp),
    pyStrip_replicate_succ 3999 'A' (by decide)]

theorem split_repA4000 :
    split_text_into_chunks (List.replicate 4000 'A') =
      [List.replicate 4000 'A'] := by
  unfold split_text_into_chunks
  rw [clean_text_replicate_succ 3999 'A' (by decide) (by decide)]
  rw [if_neg (by simp only [List.length_replicate]; decide)]
  rw [paragraphs_noNl (not_mem_replicate (by decide) _)
    (pyStrip_replicate_succ 3999 'A' (by decide))
    (replicate_succ_ne_nil 3999 'A'),
    chunkParas_repA4000,
    if_neg (by
      rw [show ([List.replicate 4000 'A'] : List (List Char)).isEmpty = false
        from rfl]
      simp)]

theorem fallbackWindows_repA4000 :
    fallbackWindows (List.replicate 4000 'A') =
      [List.replicate 3000 'A', List.replicate 1600 'A'] := by
  unfold fallbackWindows pyRange pySlice
  rw [List.length_replicate]
  rw [show (4000 + (MAX_CHUNK_SIZE - CHUNK_OVERLAP) - 1) /
      (MAX_CHUNK_SIZE - CHUNK_OVERLAP) = 2 by decide]
  rw [show List.range' 0 2 (MAX_CHUNK_SIZE - CHUNK_OVERLAP) = [0, 2700]
    by decide]
  simp only [List.map_cons, List.map_nil]
  norm_num [List.drop_replicate, List.take_replicate, MAX_CHUNK_SIZE,
    CHUNK_OVERLAP]

/-! ## Claim C2: the `"A"*4000` scenario -/

/-- C2, counterexample: on `"A"*4000` the chunker does not return
overlapping fixed windows — the paragraph loop emits the whole text as
one chunk, so the output has a single element (of length 4000, not
windows of 3000). -/
theorem C2_counterexample :
    split_text_into_chunks (List.replicate 4000 'A') ≠
      [List.replicate 3000 'A', List.replicate 1600 'A']
    ∧ (split_text_into_chunks (List.replicate 4000 'A')).length = 1 := by
  constructor
  · rw [split_repA4000]
    intro h
    have hlen := congrArg List.length h
    simp only [List.length_cons, List.length_nil] at hlen
    exact absurd hlen (by decide)
  · rw [split_repA4000]
    rfl

/-- C2, amended: for `"A"*4000` the paragraph loop keeps the single
oversized paragraph in its buffer (the buffer never reaches
`MIN_CHUNK_SIZE` before the oversize test), so `split_text_into_chunks`
returns the one chunk `"A"*4000` — exceeding `MAX_CHUNK_SIZE` — and the
fixed-size windowing fallback is not reached.  Had the fallback run, it
would have produced the windows `text[0:3000]` and `text[2400:4000]`,
which overlap by 600 characters, not 300. -/
theorem C2_single_oversized_chunk :
    split_text_into_chunks (List.replicate 4000 'A') =
      [List.replicate 4000 'A']
    ∧ MAX_CHUNK_SIZE < (List.replicate 4000 'A').length
    ∧ fallbackWindows (List.replicate 4000 'A') =
        [List.replicate 3000 'A', List.replicate 1600 'A'] :=
  ⟨split_repA4000, by simp only [List.length_replicate]; decide,
    fallbackWindows_repA4000⟩

/-! ## Claim C3: character preservation on the primary path -/

theorem cexRepA_getLast? : cexRepA.getLast? = some 'A' :=
  getLast?_replicate_succ 1999 'A'

theorem cexRepB_cons : cexRepB = 'B' :: List.replicate 1999 'B' := rfl

theorem cexRepA_ne_nil : cexRepA ≠ [] := replicate_succ_ne_nil 1999 'A'

theorem cexRepA_head? : cexRepA.head? = some 'A' :=
  head?_replicate_succ 1999 'A'

theorem cexRepA_nl : '\n' ∉ cexRepA := not_mem_replicate (by decide) _

theorem cexRepA_sp : ' ' ∉ cexRepA := not_mem_replicate (by decide) _

theorem cexRepB_nl : '\n' ∉ cexRepB := not_mem_replicate (by decide) _

theorem cexRepB_sp : ' ' ∉ cexRepB := not_mem_replicate (by decide) _

theorem pyStrip_cexRepA : pyStrip cexRepA = cexRepA :=
  pyStrip_replicate_succ 1999 'A' (by decide)

theorem pyStrip_cexRepB : pyStrip cexRepB = cexRepB :=
  pyStrip_replicate_succ 1999 'B' (by decide)

theorem cexRepA_isEmpty : cexRepA.isEmpty = false :=
  isEmpty_replicate_succ 1999 'A'

theorem cexRepB_isEmpty : cexRepB.isEmpty = false :=
  isEmpty_replicate_succ 1999 'B'

theorem cexRepA_length : cexRepA.length = 2000 := List.length_replicate _ _

theorem cexRepB_length : cexRepB.length = 2000 := List.length_replicate _ _

theorem clean_cexT : clean_text cexT = cexT := by
  apply clean_text_eq_self
  · refine noRun_append (noRun_of_not_mem cexRepA_nl) ?_ ?_
    · refine List.chain'_cons'.mpr ⟨?_, List.chain'_cons'.mpr
        ⟨?_, List.chain'_cons'.mpr ⟨?_, noRun_of_not_mem cexRepB_nl⟩⟩⟩
      · intro z hz
        simp only [List.head?_cons, Option.mem_def, Option.some.injEq] at hz
        subst hz
        decide
      · intro z hz
        simp only [List.head?_cons, Option.mem_def, Option.some.injEq] at hz
        subst hz
        decide
      · intro z hz
        rw [cexRepB_cons] at hz
        simp only [List.head?_cons, Option.mem_def, Option.some.injEq] at hz
        subst hz
        decide
    · intro x hx y hy hxy
      rw [cexRepA_getLast?] at hx
      have hxA : 'A' = x := by simpa using hx
      rw [← hxA] at hxy
      exact absurd hxy.1 (by decide)
  · refine noRun_append (noRun_of_not_mem cexRepA_sp) ?_ ?_
    · refine List.chain'_cons'.mpr ⟨?_, List.chain'_cons'.mpr
        ⟨?_, List.chain'_cons'.mpr ⟨?_, noRun_of_not_mem cexRepB_sp⟩⟩⟩
      · intro z hz
        simp only [List.head?_cons, Option.mem_def, Option.some.injEq] at hz
        subst hz
        decide
      · intro z hz
        simp only [List.head?_cons, Option.mem_def, Option.some.injEq] at hz
        subst hz
        decide
      · intro z hz
        rw [cexRepB_cons] at hz
        simp only [List.head?_cons, Option.mem_def, Option.some.injEq] at hz
        subst hz
        decide
    · intro x hx y hy hxy
      rw [cexRepA_getLast?] at hx
      have hxA : 'A' = x := by simpa using hx
      rw [← hxA] at hxy
      exact absurd hxy.1 (by decide)
  · intro c hc
    rcases List.mem_append.mp hc with hc | hc
    · rw [(List.mem_replicate.mp hc).2]
      decide
    · rcases List.mem_cons.mp hc with rfl | hc
      · decide
      rcases List.mem_cons.mp hc with rfl | hc
      · decide
      rcases List.mem_cons.mp hc with rfl | hc
      · decide
      · rw [(List.mem_replicate.mp hc).2]
        decide
  · intro c hc
    rw [show cexT.head? = some 'A' by
      rw [cexT, List.head?_append_of_ne_nil _ cexRepA_ne_nil]
      exact cexRepA_head?] at hc
    rw [show c = 'A' from (by simpa using hc : 'A' = c).symm]
    decide
  · intro c hc
    rw [show cexT.getLast? = some 'B' by
      rw [cexT, List.getLast?_append_of_ne_nil _ (List.cons_ne_nil _ _),
        List.getLast?_cons_cons, List.getLast?_cons_cons, cexRepB_cons,
        List.getLast?_cons_cons]
      exact getLast?_replicate_succ 1999 'B'] at hc
    rw [show c = 'B' from (by simpa using hc : 'B' = c).symm]
    decide

theorem split_ws_paragraphs_cexT :
    split_ws_paragraphs cexT = [cexRepA, cexRepB] := by
  unfold split_ws_paragraphs cexT
  rw [splitParasGo_append_noNl cexRepA_nl []]
  have htw : (' ' :: '\n' :: cexRepB).takeWhile isPyWs = [' ', '\n'] := by
    rw [List.takeWhile_cons, if_pos (by decide), List.takeWhile_cons,
      if_pos (by decide), cexRepB_cons, List.takeWhile_cons,
      if_neg (by decide)]
  rw [splitParasGo_cons_nl_sep _ _ (by rw [htw]; simp)]
  rw [htw, show sepTail [' ', '\n'] = [' ', '\n'] from by decide]
  rw [show ((' ' :: '\n' :: cexRepB).drop ([' ', '\n'] : List Char).length) =
    cexRepB from rfl]
  rw [splitParasGo_noNl cexRepB_nl]
  simp

theorem paragraphs_cexT : paragraphs cexT = [cexRepA, cexRepB] := by
  unfold paragraphs
  rw [split_ws_paragraphs_cexT, List.map_cons, List.map_cons, List.map_nil,
    pyStrip_cexRepA, pyStrip_cexRepB, List.filter_cons, List.filter_cons,
    cexRepA_isEmpty, cexRepB_isEmpty]
  rfl

theorem chunkParas_cexParas :
    chunkParas [cexRepA, cexRepB] false [] = [cexRepA, cexRepB] := by
  rw [chunkParas_cons,
    if_neg (by
      rw [List.length_nil, cexRepA_length]
      decide),
    show joinPara [] cexRepA = cexRepA from rfl,
    chunkParas_cons,
    if_pos (by
      rw [cexRepA_length, cexRepB_length]
      exact ⟨by decide, by decide⟩),
    chunkParas_nil,
    if_neg (by rw [cexRepB_isEmpty]; simp),
    pyStrip_cexRepA, pyStrip_cexRepB]

theorem cexT_length : cexT.length = 4003 := by
  rw [cexT, List.length_append]
  simp only [List.length_cons, cexRepA, cexRepB, List.length_replicate]

theorem split_cexT : split_text_into_chunks cexT = [cexRepA, cexRepB] := by
  unfold split_text_into_chunks
  rw [clean_cexT, if_neg (by rw [cexT_length]; decide),
    paragraphs_cexT, chunkParas_cexParas,
    if_neg (by rw [show ([cexRepA, cexRepB] : List (List Char)).isEmpty =
      false from rfl]; simp)]

/-- C3, counterexample: `cexT` — two 2000-character paragraphs separated
by newline–space–newline — is handled by the primary paragraph path (its
cleaned length 4003 exceeds `MAX_CHUNK_SIZE` and the loop emits chunks),
yet the concatenation of the returned chunks does not reproduce the input,
with or without the inserted blank-line separators removed: the three
separator characters are lost. -/
theorem C3_counterexample :
    MAX_CHUNK_SIZE < (clean_text cexT).length
    ∧ split_text_into_chunks cexT = [cexRepA, cexRepB]
    ∧ removeNlNl (List.flatten (split_text_into_chunks cexT)) ≠ cexT
    ∧ List.flatten (split_text_into_chunks cexT) ≠ cexT := by
  have hflat : List.flatten (split_text_into_chunks cexT) =
      cexRepA ++ cexRepB := by
    rw [split_cexT, List.flatten_cons, List.flatten_cons, List.flatten_nil,
      List.append_nil]
  have hlen : (cexRepA ++ cexRepB).length = 4000 := by
    simp only [List.length_append, cexRepA, cexRepB, List.length_replicate]
  refine ⟨by rw [clean_cexT, cexT_length]; decide, split_cexT, ?_, ?_⟩
  · rw [hflat, removeNlNl_eq_self (noRun_of_not_mem (by
      intro hm
      rcases List.mem_append.mp hm with hm | hm
      · exact not_mem_replicate (by decide) _ hm
      · exact not_mem_replicate (by decide) _ hm))]
    intro h
    have := congrArg List.length h
    rw [hlen, cexT_length] at this
    exact absurd this (by decide)
  · rw [hflat]
    intro h
    have := congrArg List.length h
    rw [hlen, cexT_length] at this
    exact absurd this (by decide)

/-- C3, amended: on the primary (paragraph-based, non-fallback) path the
chunker loses no paragraph character: concatenating the returned chunks
with the inserted blank-line joins removed reproduces exactly the
concatenation of the stripped paragraphs of the cleaned input.  The
characters of the paragraph separators themselves (the whitespace runs
consumed by the blank-line split) are not reproduced, so the original
text is recovered exactly only when it has no paragraph separator. -/
theorem C3_primary_path_content (T : List Char)
    (hlen : MAX_CHUNK_SIZE < (clean_text T).length)
    (hne : chunkParas (paragraphs (clean_text T)) false [] ≠ []) :
    removeNlNl (List.flatten (split_text_into_chunks T)) =
      (paragraphs (clean_text T)).flatten := by
  unfold split_text_into_chunks
  rw [if_neg (not_le.mpr hlen), if_neg (by simp [List.isEmpty_iff, hne])]
  have h := chunkParas_content (paragraphs (clean_text T)) false []
    (paragraphs_good _) (by simp)
  rw [show joinParas [] = [] from rfl] at h
  rw [h]
  simp

/-- Witness for C3's amended theorem at the concrete two-paragraph input
`cexT`. -/
theorem C3_witness :
    MAX_CHUNK_SIZE < (clean_text cexT).length
    ∧ chunkParas (paragraphs (clean_text cexT)) false [] ≠ []
    ∧ removeNlNl (List.flatten (split_text_into_chunks cexT)) =
        (paragraphs (clean_text cexT)).flatten := by
  have hlen : MAX_CHUNK_SIZE < (clean_text cexT).length := by
    rw [clean_cexT, cexT_length]
    decide
  have hne : chunkParas (paragraphs (clean_text cexT)) false [] ≠ [] := by
    rw [clean_cexT, paragraphs_cexT, chunkParas_cexParas]
    simp
  exact ⟨hlen, hne, C3_primary_path_content cexT hlen hne⟩

/-! ## Claim C4: small inputs -/

theorem length_squeezeRuns_le (a : Char) (l : List Char) :
    (squeezeRuns a l).length ≤ l.length := by
  induction l with
  | nil => simp [squeezeRuns]
  | cons c t ih =>
    cases t with
    | nil => simp [squeezeRuns]
    | cons d rest =>
      rw [squeezeRuns]
      split
      · exact le_trans ih (by simp)
      · simpa using ih

theorem length_pyStrip_le (l : List Char) : (pyStrip l).length ≤ l.length := by
  unfold pyStrip dropLeadWs
  calc ((List.dropWhile isPyWs l.reverse).reverse.dropWhile isPyWs).length
      ≤ (List.dropWhile isPyWs l.reverse).reverse.length :=
        (List.dropWhile_suffix _).sublist.length_le
    _ = (List.dropWhile isPyWs l.reverse).length := List.length_reverse _
    _ ≤ l.reverse.length := (List.dropWhile_suffix _).sublist.length_le
    _ = l.length := List.length_reverse _

theorem length_clean_text_le (T : List Char) :
    (clean_text T).length ≤ T.length := by
  unfold clean_text
  calc (pyStrip ((squeezeRuns ' ' (squeezeRuns '\n' T)).filter
        (fun c => isPrintable c || c = '\n'))).length
      ≤ ((squeezeRuns ' ' (squeezeRuns '\n' T)).filter
          (fun c => isPrintable c || c = '\n')).length := length_pyStrip_le _
    _ ≤ (squeezeRuns ' ' (squeezeRuns '\n' T)).length :=
        List.length_filter_le _ _
    _ ≤ (squeezeRuns '\n' T).length := length_squeezeRuns_le _ _
    _ ≤ T.length := length_squeezeRuns_le _ _

/-- C4, counterexample: `split_text_into_chunks` normalizes before the
size test, so a short but non-normalized input is not returned verbatim:
`" a"` yields `["a"]`, not `[" a"]`. -/
theorem C4_counterexample :
    split_text_into_chunks (" a".toList) ≠ [(" a".toList)]
    ∧ split_text_into_chunks (" a".toList) = [("a".toList)] := by
  constructor
  · decide
  · decide

/-- C4, amended: for every input of length at most `MAX_CHUNK_SIZE` the
chunker returns the one-element list containing the *cleaned* input
(cleaning never lengthens the text, so the small-input branch is taken);
in particular the result is `[T]` exactly when `T` is already
normalized. -/
theorem C4_small_input_single_chunk (T : List Char)
    (h : T.length ≤ MAX_CHUNK_SIZE) :
    split_text_into_chunks T = [clean_text T]
    ∧ (clean_text T = T → split_text_into_chunks T = [T]) := by
  have hc : split_text_into_chunks T = [clean_text T] := by
    unfold split_text_into_chunks
    rw [if_pos (le_trans (length_clean_text_le T) h)]
  exact ⟨hc, fun he => by rw [hc, he]⟩

/-- Witness for C4's amended theorem at the already-normalized input
`"Az 9"` and at the non-normalized `" a"`-like behaviour through
`clean_text`. -/
theorem C4_witness :
    (("Az 9".toList).length ≤ MAX_CHUNK_SIZE)
    ∧ split_text_into_chunks ("Az 9".toList) = [clean_text ("Az 9".toList)]
    ∧ split_text_into_chunks ("Az 9".toList) = [("Az 9".toList)] :=
  ⟨by decide, (C4_small_input_single_chunk ("Az 9".toList) (by decide)).1,
    (C4_small_input_single_chunk ("Az 9".toList) (by decide)).2 (by decide)⟩

end PDFSystem
